import Mathlib

/-!
Verification development for the compose core of the `dctl` repository:
the dependency-graph resolver (`ResolveOrder`, `pkg/compose/graph.go`),
the parser's normalization and merging functions (`pkg/compose/parser.go`),
and the build-argument construction (`cmd/compose.go`).

Go maps are modelled as association lists `List (String × α)`; the list
order models the (nondeterministic) iteration order of the map, and the
well-formedness hypothesis `KeysNodup` models the fact that a Go map has
distinct keys.  Go `interface{}` values of the shapes the code inspects
are modelled by the inductive `GoVal`.  Fallible Go functions returning
`(T, error)` are modelled by `Except String T`, carrying the exact
`fmt.Errorf` message text.
-/

namespace Dctl

/-- A dependency condition, from `types.go` (`DependsOnCondition`). -/
structure DependsOnCondition where
  condition : String
  restart : Bool
deriving DecidableEq

/-- Build configuration, from `types.go` (`BuildConfig`).  The Go maps
`Args` and `Labels` are association lists in iteration order. -/
structure BuildConfig where
  context : String := ""
  dockerfile : String := ""
  target : String := ""
  args : List (String × String) := []
  labels : List (String × String) := []
deriving DecidableEq

/-- A dynamically typed Go value (`interface{}`), restricted to the shapes
inspected by the type switches of `parser.go` and `graph.go`.
`vnull` is the Go `nil` interface. -/
inductive GoVal where
  | vnull : GoVal
  | vstr (s : String) : GoVal
  | vbool (b : Bool) : GoVal
  | vint (n : Int) : GoVal
  | vlist (elems : List GoVal) : GoVal
  | vmap (entries : List (String × GoVal)) : GoVal
  | vcondMap (entries : List (String × DependsOnCondition)) : GoVal
  | vstrList (elems : List String) : GoVal
  | vstrMap (entries : List (String × String)) : GoVal
  | vbuild (bc : BuildConfig) : GoVal

/-- A service definition, from `types.go` (`Service`).  Only the fields the
verified code paths read are carried; the remaining scalar fields are
passthrough data that none of the verified functions inspect.  Dynamic
(`interface{}`) fields hold a `GoVal`, with `GoVal.vnull` for Go `nil`. -/
structure Service where
  image : String := ""
  build : GoVal := GoVal.vnull
  command : GoVal := GoVal.vnull
  entrypoint : GoVal := GoVal.vnull
  environment : GoVal := GoVal.vnull
  envFile : GoVal := GoVal.vnull
  dependsOn : GoVal := GoVal.vnull
  dns : GoVal := GoVal.vnull
  dnsSearch : GoVal := GoVal.vnull
  tmpfs : GoVal := GoVal.vnull
  networks : GoVal := GoVal.vnull
  restart : String := ""

/-- A network definition, from `types.go` (`Network`), scalar fields only. -/
structure Network where
  driver : String := ""
  external : Bool := false
  name : String := ""
deriving DecidableEq

/-- A volume definition, from `types.go` (`VolumeConfig`). -/
structure VolumeConfig where
  driver : String := ""
  external : Bool := false
  name : String := ""
deriving DecidableEq

/-- A parsed compose file, from `types.go` (`ComposeFile`).  The three Go
maps are association lists in iteration order. -/
structure ComposeFile where
  name : String := ""
  services : List (String × Service) := []
  networks : List (String × Network) := []
  volumes : List (String × VolumeConfig) := []

/-- The keys of an association list (the domain of the modelled Go map). -/
def keysOf (l : List (String × α)) : List String := l.map Prod.fst

/-- Well-formedness of a modelled Go map: its keys are distinct. -/
def KeysNodup (l : List (String × α)) : Prop := (keysOf l).Nodup

/-- Lexicographic comparison of character lists; `charListLe as bs` holds
when `as` is at most `bs` in the byte-lexicographic order Go uses for
string comparison. -/
def charListLe : List Char → List Char → Bool
  | [], _ => true
  | _ :: _, [] => false
  | a :: as, b :: bs => if a < b then true else if b < a then false else charListLe as bs

/-- Go string ordering (`s1 < s2 || s1 == s2`), byte-lexicographic. -/
def strLe (a b : String) : Bool := charListLe a.data b.data

/-- `sort.Strings`: sort a slice of strings ascending in Go string order. -/
def sortStrings (l : List String) : List String :=
  l.insertionSort (fun a b => strLe a b = true)

/-- The dependency names a service contributes in `ResolveOrder`
(`graph.go` lines 17-30): the keys of its `DependsOn` value when that
value has dynamic type `map[string]DependsOnCondition`, and nothing
otherwise (the type switch has a single case). -/
def dependsKeys (svc : Service) : List String :=
  match svc.dependsOn with
  | GoVal.vcondMap m => m.map Prod.fst
  | _ => []

/-- The `fmt.Errorf` text of `graph.go` line 25. -/
def undefinedDepMsg (name dep : String) : String :=
  "service \"" ++ name ++ "\" depends on undefined service \"" ++ dep ++ "\""

/-- The check of `graph.go` lines 23-26 for one service: walk its
dependency names in iteration order and fail on the first one that is not
a key of `services`. -/
def checkSvcDeps (all : List (String × Service)) (name : String) :
    List String → Except String Unit
  | [] => Except.ok ()
  | dep :: ds =>
    if (all.lookup dep).isSome then checkSvcDeps all name ds
    else Except.error (undefinedDepMsg name dep)

/-- `graph.go` lines 11-30: build the `deps` adjacency map (service name to
the list of names it depends on), failing on the first reference to an
undefined service, in iteration order.  The two Go loops (initialization
to `nil`, then appending) produce exactly one entry per service name. -/
def buildDeps (all : List (String × Service)) :
    List (String × Service) → Except String (List (String × List String))
  | [] => Except.ok []
  | (name, svc) :: rest => do
    checkSvcDeps all name (dependsKeys svc)
    let tail ← buildDeps all rest
    Except.ok ((name, dependsKeys svc) :: tail)

/-- Reading `inDegree[child]` from the modelled Go `map[string]int`
(a missing key reads as zero, as in Go). -/
def lookupInt (l : List (String × Int)) (k : String) : Int :=
  (l.lookup k).getD 0

/-- `inDegree[child]--` on the modelled Go `map[string]int`: decrement the
entry if the key is present, otherwise insert the key with value `-1`
(Go map assignment semantics). -/
def mapDecr (l : List (String × Int)) (k : String) : List (String × Int) :=
  if l.any (fun p => p.1 == k) then
    l.map (fun p => if p.1 == k then (p.1, p.2 - 1) else p)
  else l ++ [(k, -1)]

/-- `graph.go` lines 71-76: for each child of the removed service,
decrement its in-degree and append it to the back of the queue when the
in-degree reaches zero. -/
def processChildren (children : List String) (inDeg : List (String × Int))
    (queue : List String) : List (String × Int) × List String :=
  match children with
  | [] => (inDeg, queue)
  | child :: cs =>
    let inDeg2 := mapDecr inDeg child
    if lookupInt inDeg2 child == 0 then
      processChildren cs inDeg2 (queue ++ [child])
    else
      processChildren cs inDeg2 queue

/-- The Kahn loop of `graph.go` lines 62-77.  `dependents` is the reverse
adjacency built at lines 41-50; the loop sorts each dependents slice
before use (line 70).  `fuel` bounds the number of iterations; the caller
passes enough fuel that the loop always stops because the queue is empty. -/
def kahnLoop (dependents : String → List String) :
    Nat → List (String × Int) → List String → List String →
    List String × List (String × Int)
  | 0, inDeg, _, order => (order, inDeg)
  | Nat.succ fuel, inDeg, queue, order =>
    match queue with
    | [] => (order, inDeg)
    | current :: rest =>
      let children := sortStrings (dependents current)
      let r := processChildren children inDeg rest
      kahnLoop dependents fuel r.1 r.2 (order ++ [current])

/-- The `fmt.Errorf` text of `graph.go` line 88; `%v` on a `[]string`
prints the elements space-separated inside brackets. -/
def cycleMsg (cycled : List String) : String :=
  "dependency cycle detected among services: [" ++
    String.intercalate " " cycled ++ "]"

/-- The part of `ResolveOrder` after the adjacency map is built
(`graph.go` lines 32-91), as a function of the `deps` map:
sort each dependency list, compute in-degrees and the reverse adjacency,
seed the queue with the zero-in-degree services sorted by name, run the
Kahn loop, and either return the order or report the sorted list of
services left with non-zero in-degree. -/
def runKahn (deps0 : List (String × List String)) : Except String (List String) :=
  let deps := deps0.map (fun p => (p.1, sortStrings p.2))
  let inDeg0 : List (String × Int) := deps.map (fun p => (p.1, (p.2.length : Int)))
  let dependents : String → List String :=
    fun d => (deps.filter (fun p => p.2.contains d)).map Prod.fst
  let queue0 := sortStrings ((inDeg0.filter (fun p => p.2 == 0)).map Prod.fst)
  let res := kahnLoop dependents (deps0.length + 1) inDeg0 queue0 []
  if res.1.length ≠ deps0.length then
    Except.error (cycleMsg (sortStrings
      ((res.2.filter (fun p => 0 < p.2)).map Prod.fst)))
  else
    Except.ok res.1

/-- `ResolveOrder` (`graph.go` lines 10-92): topological sort of the
services by their `depends_on` relationships, with deterministic
(sorted) tie-breaking and cycle detection. -/
def ResolveOrder (services : List (String × Service)) : Except String (List String) := do
  let deps ← buildDeps services services
  runKahn deps

/-! ### Semantic predicates about a services mapping -/

/-- The dependency names of the service registered under `n` (empty when
`n` is not a declared service). -/
def svcDeps (services : List (String × Service)) (n : String) : List String :=
  match services.lookup n with
  | some svc => dependsKeys svc
  | none => []

/-- `DepEdge services d s` holds when service `s` declares a dependency
on `d` (through the normalized `map[string]DependsOnCondition` shape). -/
def DepEdge (services : List (String × Service)) (d s : String) : Prop :=
  d ∈ svcDeps services s

/-- The dependency graph is acyclic: the dependency edge relation is
well-founded (every chain of dependencies terminates). -/
def AcyclicDeps (services : List (String × Service)) : Prop :=
  WellFounded (DepEdge services)

/-- Every service's dependency list has distinct entries (true of every
value produced by decoding a Go map, whose keys are unique). -/
def DepsNodup (services : List (String × Service)) : Prop :=
  ∀ p ∈ services, (dependsKeys p.2).Nodup

/-- Every dependency reference names a declared service. -/
def AllDeclared (services : List (String × Service)) : Prop :=
  ∀ p ∈ services, ∀ d ∈ dependsKeys p.2, d ∈ keysOf services

/-- A topological ordering of the services exists: some duplicate-free
enumeration of the service names places every dependency strictly before
its dependent. -/
def TopoOrderExists (services : List (String × Service)) : Prop :=
  ∃ l : List String, l.Perm (keysOf services) ∧
    ∀ s svc, (s, svc) ∈ services → ∀ d ∈ dependsKeys svc,
      l.indexOf d < l.indexOf s

/-- A service is startable when all of its (transitive) dependencies can
be brought up first; the services left over by `ResolveOrder`'s cycle
detection are exactly the non-startable ones. -/
inductive Startable (services : List (String × Service)) : String → Prop where
  | mk : ∀ n, n ∈ keysOf services →
      (∀ d ∈ svcDeps services n, Startable services d) → Startable services n

/-! ### Association-list lemmas (modelled Go map operations) -/

theorem lookup_isSome_iff {β : Type} (l : List (String × β)) (k : String) :
    (l.lookup k).isSome ↔ k ∈ keysOf l := by
  induction l with
  | nil => simp [keysOf, List.lookup]
  | cons p rest ih =>
    obtain ⟨a, b⟩ := p
    by_cases h : k = a
    · subst h; simp [keysOf, List.lookup]
    · simp [keysOf, List.lookup, show (k == a) = false by simp [h], h, ih]

theorem lookup_eq_none_iff {β : Type} (l : List (String × β)) (k : String) :
    l.lookup k = none ↔ k ∉ keysOf l := by
  rw [← lookup_isSome_iff]
  cases l.lookup k <;> simp

theorem mem_of_lookup_eq_some {β : Type} {l : List (String × β)} {k : String}
    {v : β} (h : l.lookup k = some v) : (k, v) ∈ l := by
  induction l with
  | nil => simp [List.lookup] at h
  | cons p rest ih =>
    obtain ⟨a, b⟩ := p
    by_cases hk : k = a
    · subst hk
      simp only [List.lookup, beq_self_eq_true] at h
      have hv : b = v := by simpa using h
      subst hv
      exact List.mem_cons_self _ _
    · simp only [List.lookup, show (k == a) = false by simp [hk]] at h
      exact List.mem_cons_of_mem _ (ih h)

theorem lookup_eq_some_of_mem {β : Type} {l : List (String × β)} {k : String}
    {v : β} (hnd : KeysNodup l) (h : (k, v) ∈ l) : l.lookup k = some v := by
  induction l with
  | nil => simp at h
  | cons p rest ih =>
    obtain ⟨a, b⟩ := p
    simp only [KeysNodup, keysOf, List.map_cons, List.nodup_cons] at hnd
    rcases List.mem_cons.mp h with h1 | h1
    · cases h1
      simp [List.lookup]
    · have hka : k ≠ a := by
        rintro rfl
        exact hnd.1 (List.mem_map.mpr ⟨(k, v), h1, rfl⟩)
      simp only [List.lookup, show (k == a) = false by simp [hka]]
      exact ih hnd.2 h1

theorem lookup_eq_of_perm {β : Type} {l1 l2 : List (String × β)}
    (hp : l1.Perm l2) (hnd : KeysNodup l1) (k : String) :
    l1.lookup k = l2.lookup k := by
  have hnd2 : KeysNodup l2 := by
    have := (hp.map Prod.fst).nodup_iff.mp hnd
    exact this
  cases h1 : l1.lookup k with
  | none =>
    rw [lookup_eq_none_iff] at h1
    have : k ∉ keysOf l2 := fun hc => h1 ((hp.map Prod.fst).mem_iff.mpr hc)
    exact ((lookup_eq_none_iff l2 k).mpr this).symm
  | some v =>
    have hm : (k, v) ∈ l2 := hp.mem_iff.mp (mem_of_lookup_eq_some h1)
    exact (lookup_eq_some_of_mem hnd2 hm).symm

theorem lookup_map_pair {β γ : Type} (g : String × β → γ)
    (l : List (String × β)) (k : String) :
    (l.map (fun p => (p.1, g p))).lookup k
      = (l.lookup k).map (fun v => g (k, v)) := by
  induction l with
  | nil => simp [List.lookup]
  | cons p rest ih =>
    obtain ⟨a, b⟩ := p
    by_cases h : k = a
    · subst h; simp [List.lookup]
    · simp only [List.map_cons, List.lookup, show (k == a) = false by simp [h]]
      exact ih

theorem keysOf_map_pair {β γ : Type} (g : String × β → γ) (l : List (String × β)) :
    keysOf (l.map (fun p => (p.1, g p))) = keysOf l := by
  simp [keysOf, List.map_map, Function.comp]

/-! ### Lemmas about `sortStrings` -/

theorem charListLe_total : ∀ as bs, charListLe as bs = true ∨ charListLe bs as = true := by
  intro as
  induction as with
  | nil => intro bs; left; rfl
  | cons a as ih =>
    intro bs
    cases bs with
    | nil => right; rfl
    | cons b bs =>
      rcases lt_trichotomy a b with h | h | h
      · left
        simp [charListLe, h]
      · subst h
        rcases ih bs with h2 | h2
        · left
          simp [charListLe, h2]
        · right
          simp [charListLe, h2]
      · right
        simp [charListLe, h]

theorem charListLe_trans :
    ∀ as bs cs, charListLe as bs = true → charListLe bs cs = true →
      charListLe as cs = true := by
  intro as
  induction as with
  | nil => intro bs cs _ _; rfl
  | cons a as ih =>
    intro bs cs h1 h2
    cases bs with
    | nil => simp [charListLe] at h1
    | cons b bs =>
      cases cs with
      | nil => simp [charListLe] at h2
      | cons c cs =>
        rcases lt_trichotomy a b with hab | hab | hab
        · rcases lt_trichotomy b c with hbc | hbc | hbc
          · simp [charListLe, lt_trans hab hbc]
          · subst hbc
            simp [charListLe, hab]
          · simp [charListLe, hbc, lt_asymm hbc] at h2
        · subst hab
          rcases lt_trichotomy a c with hac | hac | hac
          · simp [charListLe, hac]
          · subst hac
            simp only [charListLe, lt_irrefl, if_false] at h1 h2 ⊢
            exact ih bs cs h1 h2
          · simp [charListLe, hac, lt_asymm hac] at h2
        · simp [charListLe, hab, lt_asymm hab] at h1

theorem charListLe_antisymm :
    ∀ as bs, charListLe as bs = true → charListLe bs as = true → as = bs := by
  intro as
  induction as with
  | nil =>
    intro bs h1 h2
    cases bs with
    | nil => rfl
    | cons b bs => simp [charListLe] at h2
  | cons a as ih =>
    intro bs h1 h2
    cases bs with
    | nil => simp [charListLe] at h1
    | cons b bs =>
      rcases lt_trichotomy a b with hab | hab | hab
      · simp [charListLe, hab, lt_asymm hab] at h2
      · subst hab
        simp only [charListLe, lt_irrefl, if_false] at h1 h2
        rw [ih bs h1 h2]
      · simp [charListLe, hab, lt_asymm hab] at h1

instance : IsTotal String (fun a b => strLe a b = true) :=
  ⟨fun a b => charListLe_total a.data b.data⟩

instance : IsTrans String (fun a b => strLe a b = true) :=
  ⟨fun a b c => charListLe_trans a.data b.data c.data⟩

instance : IsAntisymm String (fun a b => strLe a b = true) := by
  refine ⟨fun a b h1 h2 => ?_⟩
  have hd := charListLe_antisymm a.data b.data h1 h2
  cases a with
  | mk da =>
    cases b with
    | mk db =>
      simp only [String.data] at hd
      rw [hd]

theorem sortStrings_perm (l : List String) : (sortStrings l).Perm l :=
  List.perm_insertionSort _ l

theorem mem_sortStrings {a : String} {l : List String} :
    a ∈ sortStrings l ↔ a ∈ l :=
  (sortStrings_perm l).mem_iff

theorem sortStrings_sorted (l : List String) :
    (sortStrings l).Sorted (fun a b => strLe a b = true) :=
  List.sorted_insertionSort _ l

theorem sortStrings_nodup {l : List String} (h : l.Nodup) :
    (sortStrings l).Nodup :=
  (sortStrings_perm l).nodup_iff.mpr h

theorem sortStrings_eq_of_perm {l1 l2 : List String} (h : l1.Perm l2) :
    sortStrings l1 = sortStrings l2 :=
  List.eq_of_perm_of_sorted
    ((sortStrings_perm l1).trans (h.trans (sortStrings_perm l2).symm))
    (sortStrings_sorted l1) (sortStrings_sorted l2)

/-! ### Lemmas about `mapDecr` and `processChildren` -/

theorem mapDecr_eq_map {l : List (String × Int)} {k : String}
    (h : k ∈ keysOf l) :
    mapDecr l k = l.map (fun p => (p.1, if p.1 == k then p.2 - 1 else p.2)) := by
  unfold mapDecr
  rw [if_pos]
  · apply List.map_congr_left
    intro p _
    by_cases hp : p.1 = k <;> simp [hp]
  · obtain ⟨p, hp, hfst⟩ := List.mem_map.mp h
    exact List.any_eq_true.mpr ⟨p, hp, by simp [hfst]⟩

theorem keysOf_mapDecr {l : List (String × Int)} {k : String}
    (h : k ∈ keysOf l) : keysOf (mapDecr l k) = keysOf l := by
  rw [mapDecr_eq_map h]
  exact keysOf_map_pair _ l

theorem lookupInt_mapDecr_self {l : List (String × Int)} {k : String}
    (h : k ∈ keysOf l) : lookupInt (mapDecr l k) k = lookupInt l k - 1 := by
  rw [mapDecr_eq_map h]
  unfold lookupInt
  rw [lookup_map_pair (fun p => if p.1 == k then p.2 - 1 else p.2) l k]
  have hs : (l.lookup k).isSome := (lookup_isSome_iff l k).mpr h
  cases hl : l.lookup k with
  | none => rw [hl] at hs; simp at hs
  | some v => simp

theorem lookupInt_mapDecr_ne {l : List (String × Int)} {k n : String}
    (h : k ∈ keysOf l) (hne : n ≠ k) :
    lookupInt (mapDecr l k) n = lookupInt l n := by
  rw [mapDecr_eq_map h]
  unfold lookupInt
  rw [lookup_map_pair (fun p => if p.1 == k then p.2 - 1 else p.2) l n]
  cases hl : l.lookup n with
  | none => simp
  | some v => simp [hne]

theorem processChildren_spec :
    ∀ (children : List String) (inDeg : List (String × Int)) (queue : List String),
    children.Nodup → (∀ c ∈ children, c ∈ keysOf inDeg) →
    keysOf (processChildren children inDeg queue).1 = keysOf inDeg ∧
    (∀ n, lookupInt (processChildren children inDeg queue).1 n
        = lookupInt inDeg n - (if n ∈ children then 1 else 0)) ∧
    (processChildren children inDeg queue).2
      = queue ++ children.filter (fun c => lookupInt inDeg c == 1) := by
  intro children
  induction children with
  | nil =>
    intro inDeg queue _ _
    refine ⟨rfl, fun n => by simp [processChildren], by simp [processChildren]⟩
  | cons c cs ih =>
    intro inDeg queue hnd hkeys
    have hc_key : c ∈ keysOf inDeg := hkeys c (List.mem_cons_self c cs)
    have hc_not_cs : c ∉ cs := (List.nodup_cons.mp hnd).1
    have hcs_nd : cs.Nodup := (List.nodup_cons.mp hnd).2
    have hkeys2 : ∀ x ∈ cs, x ∈ keysOf (mapDecr inDeg c) := by
      intro x hx
      rw [keysOf_mapDecr hc_key]
      exact hkeys x (List.mem_cons_of_mem _ hx)
    have hdecr_self := lookupInt_mapDecr_self hc_key
    have hcond : (lookupInt (mapDecr inDeg c) c == 0) = (lookupInt inDeg c == 1) := by
      rw [hdecr_self]
      by_cases h1 : lookupInt inDeg c = 1
      · simp [h1]
      · have h2 : lookupInt inDeg c - 1 ≠ 0 := by omega
        simp [h1, h2]
    have hfilter_cs : cs.filter (fun x => lookupInt (mapDecr inDeg c) x == 1)
        = cs.filter (fun x => lookupInt inDeg x == 1) := by
      apply List.filter_congr
      intro x hx
      rw [lookupInt_mapDecr_ne hc_key (fun he => hc_not_cs (he ▸ hx))]
    have hval2 : ∀ n, lookupInt (mapDecr inDeg c) n
        = lookupInt inDeg n - (if n = c then 1 else 0) := by
      intro n
      by_cases hn : n = c
      · subst hn; simp [hdecr_self]
      · simp [hn, lookupInt_mapDecr_ne hc_key hn]
    by_cases hq : lookupInt inDeg c = 1
    · have hbranch : (lookupInt (mapDecr inDeg c) c == 0) = true := by
        rw [hcond]; simp [hq]
      have heq : processChildren (c :: cs) inDeg queue
          = processChildren cs (mapDecr inDeg c) (queue ++ [c]) := by
        simp only [processChildren, hbranch]
        rfl
      obtain ⟨ik, iv, iq⟩ := ih (mapDecr inDeg c) (queue ++ [c]) hcs_nd hkeys2
      refine ⟨by rw [heq, ik, keysOf_mapDecr hc_key], ?_, ?_⟩
      · intro n
        rw [heq, iv n, hval2 n]
        by_cases hn : n = c
        · subst hn
          simp [hc_not_cs]
        · by_cases hncs : n ∈ cs <;> simp [hn, hncs]
      · rw [heq, iq, hfilter_cs]
        simp [hq, List.filter_cons]
    · have hbranch : (lookupInt (mapDecr inDeg c) c == 0) = false := by
        rw [hcond]; simp [hq]
      have heq : processChildren (c :: cs) inDeg queue
          = processChildren cs (mapDecr inDeg c) queue := by
        simp only [processChildren, hbranch]
        rfl
      obtain ⟨ik, iv, iq⟩ := ih (mapDecr inDeg c) queue hcs_nd hkeys2
      refine ⟨by rw [heq, ik, keysOf_mapDecr hc_key], ?_, ?_⟩
      · intro n
        rw [heq, iv n, hval2 n]
        by_cases hn : n = c
        · subst hn
          simp [hc_not_cs]
        · by_cases hncs : n ∈ cs <;> simp [hn, hncs]
      · rw [heq, iq, hfilter_cs]
        simp [hq, List.filter_cons]

/-! ### The Kahn loop invariant

The development is parametric in the graph data extracted from the
services mapping: `names` is the duplicate-free list of service names,
`depF n` the sorted, duplicate-free dependency list of `n`, and `dept c`
the (unsorted) list of services depending on `c`. -/

/-- Hypotheses tying the graph data together. -/
structure GraphOk (names : List String) (depF dept : String → List String) : Prop where
  names_nodup : names.Nodup
  depF_nodup : ∀ n, (depF n).Nodup
  depF_sub : ∀ n ∈ names, ∀ d ∈ depF n, d ∈ names
  dept_mem : ∀ c n, n ∈ dept c ↔ (n ∈ names ∧ c ∈ depF n)
  dept_nodup : ∀ c, (dept c).Nodup

/-- The loop invariant of the Kahn loop: in-degrees count the
not-yet-emitted dependencies, emitted and queued names are distinct
service names, queued services have all dependencies emitted, services
neither emitted nor queued still wait on some dependency, and the
emitted order respects the dependency relation. -/
structure KInv (names : List String) (depF : String → List String)
    (inDeg : List (String × Int)) (queue order : List String) : Prop where
  keys_eq : keysOf inDeg = names
  deg : ∀ n ∈ names, lookupInt inDeg n
      = (((depF n).filter (fun d => d ∉ order)).length : Int)
  nodup : (order ++ queue).Nodup
  subset : ∀ x ∈ order ++ queue, x ∈ names
  queue_done : ∀ n ∈ queue, ∀ d ∈ depF n, d ∈ order
  pending : ∀ n ∈ names, n ∉ order → n ∉ queue → ∃ d ∈ depF n, d ∉ order
  topo : ∀ s ∈ order, ∀ d ∈ depF s, d ∈ order ∧ order.indexOf d < order.indexOf s

theorem length_filter_not_mem_snoc {l o : List String} {c : String}
    (hl : l.Nodup) (hc : c ∉ o) :
    ((l.filter (fun d => d ∉ o ++ [c])).length : Int)
      = ((l.filter (fun d => d ∉ o)).length : Int)
        - (if c ∈ l then 1 else 0) := by
  induction l with
  | nil => simp
  | cons a t ih =>
    have ha_t : a ∉ t := (List.nodup_cons.mp hl).1
    have ht : t.Nodup := (List.nodup_cons.mp hl).2
    by_cases hao : a ∈ o
    · have hac : a ≠ c := fun he => hc (he ▸ hao)
      have hcl : (c ∈ a :: t) ↔ (c ∈ t) := by
        simp [List.mem_cons, Ne.symm hac]
      rw [List.filter_cons_of_neg (by simp [hao]),
          List.filter_cons_of_neg (by simp [hao]),
          ih ht]
      simp only [hcl]
    · by_cases hac : a = c
      · subst hac
        rw [List.filter_cons_of_neg (by simp),
            List.filter_cons_of_pos (by simp [hao]),
            ih ht]
        simp [ha_t]
      · have hcl : (c ∈ a :: t) ↔ (c ∈ t) := by
          simp [List.mem_cons, Ne.symm hac]
        rw [List.filter_cons_of_pos (by simp [hao, hac]),
            List.filter_cons_of_pos (by simp [hao])]
        simp only [List.length_cons, hcl]
        push_cast
        rw [ih ht]
        by_cases hct : c ∈ t <;> simp [hct]

theorem exists_mem_ne {l : List String} {c : String}
    (hnd : l.Nodup) (hc : c ∈ l) (hlen : l.length ≠ 1) : ∃ d ∈ l, d ≠ c := by
  by_contra hno
  push_neg at hno
  match l, hc with
  | [a], _ => exact hlen rfl
  | a :: b :: t, hc =>
    have ha : a = c := hno a (List.mem_cons_self _ _)
    have hb : b = c := hno b (List.mem_cons_of_mem _ (List.mem_cons_self _ _))
    have : a ∉ b :: t := (List.nodup_cons.mp hnd).1
    exact this (by rw [ha, hb]; exact List.mem_cons_self _ _)

theorem kahn_step {names : List String} {depF dept : String → List String}
    (hg : GraphOk names depF dept)
    {inDeg : List (String × Int)} {current : String} {rest order : List String}
    (hinv : KInv names depF inDeg (current :: rest) order) :
    KInv names depF
      (processChildren (sortStrings (dept current)) inDeg rest).1
      (processChildren (sortStrings (dept current)) inDeg rest).2
      (order ++ [current]) := by
  have hch_nodup : (sortStrings (dept current)).Nodup :=
    sortStrings_nodup (hg.dept_nodup current)
  have hch_mem : ∀ n, n ∈ sortStrings (dept current) ↔ (n ∈ names ∧ current ∈ depF n) := by
    intro n
    rw [mem_sortStrings]
    exact hg.dept_mem current n
  have hcur_names : current ∈ names :=
    hinv.subset current (List.mem_append_right _ (List.mem_cons_self _ _))
  have hcur_deps : ∀ d ∈ depF current, d ∈ order :=
    hinv.queue_done current (List.mem_cons_self _ _)
  have hnodup0 : (order ++ current :: rest).Nodup := hinv.nodup
  have horder_nd : order.Nodup := (List.nodup_append.mp hnodup0).1
  have hcr_nd : (current :: rest).Nodup := (List.nodup_append.mp hnodup0).2.1
  have hdisj : order.Disjoint (current :: rest) := (List.nodup_append.mp hnodup0).2.2
  have hcur_not_order : current ∉ order := fun h => hdisj h (List.mem_cons_self _ _)
  have hcur_not_rest : current ∉ rest := (List.nodup_cons.mp hcr_nd).1
  have hrest_nd : rest.Nodup := (List.nodup_cons.mp hcr_nd).2
  have hzero_order : ∀ n ∈ order, lookupInt inDeg n = 0 := by
    intro n hn
    have hnames : n ∈ names := hinv.subset n (List.mem_append_left _ hn)
    rw [hinv.deg n hnames]
    have hnil : (depF n).filter (fun d => d ∉ order) = [] := by
      rw [List.filter_eq_nil_iff]
      intro d hd
      simp [(hinv.topo n hn d hd).1]
    rw [hnil]
    rfl
  have hzero_queue : ∀ n ∈ current :: rest, lookupInt inDeg n = 0 := by
    intro n hn
    have hnames : n ∈ names := hinv.subset n (List.mem_append_right _ hn)
    rw [hinv.deg n hnames]
    have hnil : (depF n).filter (fun d => d ∉ order) = [] := by
      rw [List.filter_eq_nil_iff]
      intro d hd
      simp [hinv.queue_done n hn d hd]
    rw [hnil]
    rfl
  have hch_keys : ∀ c ∈ sortStrings (dept current), c ∈ keysOf inDeg := by
    intro c hcm
    rw [hinv.keys_eq]
    exact ((hch_mem c).mp hcm).1
  obtain ⟨hk, hv, hq⟩ :=
    processChildren_spec (sortStrings (dept current)) inDeg rest hch_nodup hch_keys
  rw [hq]
  have hbatch_mem : ∀ n,
      n ∈ (sortStrings (dept current)).filter (fun c => lookupInt inDeg c == 1)
        ↔ (n ∈ sortStrings (dept current) ∧ lookupInt inDeg n = 1) := by
    intro n
    rw [List.mem_filter]
    simp
  have hbatch_names : ∀ n ∈ (sortStrings (dept current)).filter
      (fun c => lookupInt inDeg c == 1), n ∈ names :=
    fun n hn => ((hch_mem n).mp ((hbatch_mem n).mp hn).1).1
  have hbatch_not_order : ∀ n ∈ (sortStrings (dept current)).filter
      (fun c => lookupInt inDeg c == 1), n ∉ order := by
    intro n hn hmem
    have h0 := hzero_order n hmem
    have h1 := ((hbatch_mem n).mp hn).2
    omega
  have hbatch_not_cr : ∀ n ∈ (sortStrings (dept current)).filter
      (fun c => lookupInt inDeg c == 1), n ∉ current :: rest := by
    intro n hn hmem
    have h0 := hzero_queue n hmem
    have h1 := ((hbatch_mem n).mp hn).2
    omega
  have hbatch_nd : ((sortStrings (dept current)).filter
      (fun c => lookupInt inDeg c == 1)).Nodup := hch_nodup.filter _
  have hdeps_batch : ∀ n ∈ (sortStrings (dept current)).filter
      (fun c => lookupInt inDeg c == 1), ∀ d ∈ depF n, d ∈ order ++ [current] := by
    intro n hn d hd
    have hn_names := hbatch_names n hn
    have h1 : lookupInt inDeg n = 1 := ((hbatch_mem n).mp hn).2
    rw [hinv.deg n hn_names] at h1
    have hflen : ((depF n).filter (fun d => d ∉ order)).length = 1 := by
      exact_mod_cast h1
    by_cases hdo : d ∈ order
    · exact List.mem_append_left _ hdo
    · have hdf : d ∈ (depF n).filter (fun d => d ∉ order) :=
        List.mem_filter.mpr ⟨hd, by simp [hdo]⟩
      have hcn : current ∈ depF n := ((hch_mem n).mp ((hbatch_mem n).mp hn).1).2
      have hcf : current ∈ (depF n).filter (fun d => d ∉ order) :=
        List.mem_filter.mpr ⟨hcn, by simp [hcur_not_order]⟩
      obtain ⟨a, ha⟩ := List.length_eq_one.mp hflen
      rw [ha, List.mem_singleton] at hdf hcf
      rw [hdf, ← hcf]
      exact List.mem_append_right _ (List.mem_cons_self _ _)
  constructor
  case keys_eq => rw [hk, hinv.keys_eq]
  case deg =>
    intro n hn
    rw [hv n, hinv.deg n hn,
        length_filter_not_mem_snoc (hg.depF_nodup n) hcur_not_order]
    have hiff : (n ∈ sortStrings (dept current)) ↔ (current ∈ depF n) := by
      rw [hch_mem n]
      simp [hn]
    simp only [hiff]
  case nodup =>
    have hshape : (order ++ [current]) ++
        (rest ++ (sortStrings (dept current)).filter (fun c => lookupInt inDeg c == 1))
        = order ++ current ::
          (rest ++ (sortStrings (dept current)).filter (fun c => lookupInt inDeg c == 1)) := by
      rw [List.append_assoc, List.singleton_append]
    rw [hshape, List.nodup_append]
    refine ⟨horder_nd, ?_, ?_⟩
    · rw [List.nodup_cons]
      constructor
      · intro hmem
        rcases List.mem_append.mp hmem with h | h
        · exact hcur_not_rest h
        · exact hbatch_not_cr current h (List.mem_cons_self _ _)
      · rw [List.nodup_append]
        refine ⟨hrest_nd, hbatch_nd, ?_⟩
        intro x hx hxb
        exact hbatch_not_cr x hxb (List.mem_cons_of_mem _ hx)
    · intro x hx hxm
      rcases List.mem_cons.mp hxm with h | h
      · exact hcur_not_order (h ▸ hx)
      · rcases List.mem_append.mp h with h2 | h2
        · exact hdisj hx (List.mem_cons_of_mem _ h2)
        · exact hbatch_not_order x h2 hx
  case subset =>
    intro x hx
    rcases List.mem_append.mp hx with h | h
    · rcases List.mem_append.mp h with h2 | h2
      · exact hinv.subset x (List.mem_append_left _ h2)
      · rw [List.mem_singleton.mp h2]
        exact hcur_names
    · rcases List.mem_append.mp h with h2 | h2
      · exact hinv.subset x (List.mem_append_right _ (List.mem_cons_of_mem _ h2))
      · exact hbatch_names x h2
  case queue_done =>
    intro n hn d hd
    rcases List.mem_append.mp hn with h | h
    · exact List.mem_append_left _
        (hinv.queue_done n (List.mem_cons_of_mem _ h) d hd)
    · exact hdeps_batch n h d hd
  case pending =>
    intro n hn hno hnq
    have hno_old : n ∉ order := fun h => hno (List.mem_append_left _ h)
    have hne_cur : n ≠ current := by
      intro he
      exact hno (List.mem_append_right _ (he ▸ List.mem_cons_self _ _))
    have hnr : n ∉ rest := fun h => hnq (List.mem_append_left _ h)
    have hnb : n ∉ (sortStrings (dept current)).filter
        (fun c => lookupInt inDeg c == 1) :=
      fun h => hnq (List.mem_append_right _ h)
    obtain ⟨d, hd, hdno⟩ := hinv.pending n hn hno_old
      (by
        intro h
        rcases List.mem_cons.mp h with h2 | h2
        · exact hne_cur h2
        · exact hnr h2)
    by_cases hdc : d = current
    · have hnch : n ∈ sortStrings (dept current) := (hch_mem n).mpr ⟨hn, hdc ▸ hd⟩
      have hnot1 : lookupInt inDeg n ≠ 1 := by
        intro h1
        exact hnb ((hbatch_mem n).mpr ⟨hnch, h1⟩)
      rw [hinv.deg n hn] at hnot1
      have hflen : ((depF n).filter (fun x => x ∉ order)).length ≠ 1 := by
        intro h1
        exact hnot1 (by exact_mod_cast h1)
      have hdf : d ∈ (depF n).filter (fun x => x ∉ order) :=
        List.mem_filter.mpr ⟨hd, by simp [hdno]⟩
      obtain ⟨e, he, hec⟩ := exists_mem_ne ((hg.depF_nodup n).filter _) hdf hflen
      have he2 := List.mem_filter.mp he
      refine ⟨e, he2.1, ?_⟩
      intro hmem
      rcases List.mem_append.mp hmem with h2 | h2
      · exact absurd h2 (by simpa using he2.2)
      · exact hec ((List.mem_singleton.mp h2).trans hdc.symm)
    · refine ⟨d, hd, ?_⟩
      intro hmem
      rcases List.mem_append.mp hmem with h2 | h2
      · exact hdno h2
      · exact hdc (List.mem_singleton.mp h2)
  case topo =>
    intro s hs d hd
    rcases List.mem_append.mp hs with h | h
    · obtain ⟨hdo, hidx⟩ := hinv.topo s h d hd
      refine ⟨List.mem_append_left _ hdo, ?_⟩
      rw [List.indexOf_append_of_mem hdo, List.indexOf_append_of_mem h]
      exact hidx
    · rw [List.mem_singleton.mp h]
      have hdo : d ∈ order := hcur_deps d (List.mem_singleton.mp h ▸ hd)
      refine ⟨List.mem_append_left _ hdo, ?_⟩
      rw [List.indexOf_append_of_mem hdo,
          List.indexOf_append_of_not_mem hcur_not_order,
          List.indexOf_cons_self]
      have : order.indexOf d < order.length := List.indexOf_lt_length.mpr hdo
      omega

/-- Running the Kahn loop with enough fuel drains the queue while
preserving the invariant. -/
theorem kahn_run {names : List String} {depF dept : String → List String}
    (hg : GraphOk names depF dept) :
    ∀ (fuel : Nat) (inDeg : List (String × Int)) (queue order : List String),
    KInv names depF inDeg queue order →
    names.length < order.length + fuel →
    KInv names depF (kahnLoop dept fuel inDeg queue order).2 []
      (kahnLoop dept fuel inDeg queue order).1 := by
  intro fuel
  induction fuel with
  | zero =>
    intro inDeg queue order hinv hlen
    have hnd : order.Nodup := (List.nodup_append.mp hinv.nodup).1
    have hsub : order ⊆ names := fun x hx => hinv.subset x (List.mem_append_left _ hx)
    have := (List.Nodup.subperm hnd hsub).length_le
    omega
  | succ fuel ih =>
    intro inDeg queue order hinv hlen
    match queue with
    | [] => exact hinv
    | current :: rest =>
      have hstep := kahn_step hg hinv
      have hlen2 : names.length < (order ++ [current]).length + fuel := by
        rw [List.length_append]
        simp only [List.length_singleton]
        omega
      have := ih _ _ _ hstep hlen2
      simpa [kahnLoop] using this

/-! ### Instantiating the invariant for `ResolveOrder` -/

instance (l : List (String × α)) : Decidable (KeysNodup l) := by
  unfold KeysNodup
  infer_instance

instance (services : List (String × Service)) : Decidable (DepsNodup services) := by
  unfold DepsNodup
  exact List.decidableBAll _ _

instance (services : List (String × Service)) : Decidable (AllDeclared services) := by
  unfold AllDeclared
  exact List.decidableBAll _ _

theorem checkSvcDeps_ok {all : List (String × Service)} {name : String}
    {ds : List String} (h : ∀ d ∈ ds, d ∈ keysOf all) :
    checkSvcDeps all name ds = Except.ok () := by
  induction ds with
  | nil => rfl
  | cons d t ih =>
    have hs : (all.lookup d).isSome :=
      (lookup_isSome_iff all d).mpr (h d (List.mem_cons_self _ _))
    simp only [checkSvcDeps, hs, if_true]
    exact ih (fun x hx => h x (List.mem_cons_of_mem _ hx))

theorem buildDeps_ok {all : List (String × Service)} :
    ∀ {l : List (String × Service)},
    (∀ p ∈ l, ∀ d ∈ dependsKeys p.2, d ∈ keysOf all) →
    buildDeps all l = Except.ok (l.map (fun p => (p.1, dependsKeys p.2))) := by
  intro l
  induction l with
  | nil => intro _; rfl
  | cons p t ih =>
    intro h
    obtain ⟨name, svc⟩ := p
    have h1 : checkSvcDeps all name (dependsKeys svc) = Except.ok () :=
      checkSvcDeps_ok (h (name, svc) (List.mem_cons_self _ _))
    have h2 := ih (fun q hq => h q (List.mem_cons_of_mem _ hq))
    simp only [buildDeps, h1, h2]
    rfl

/-- The sorted per-service dependency list used throughout the
invariant development. -/
def depFOf (services : List (String × Service)) (n : String) : List String :=
  sortStrings (svcDeps services n)

/-- The sorted adjacency list computed inside `runKahn`. -/
def sortedDeps (services : List (String × Service)) : List (String × List String) :=
  (services.map (fun p => (p.1, dependsKeys p.2))).map (fun p => (p.1, sortStrings p.2))

/-- The reverse-adjacency (dependents) function computed inside `runKahn`. -/
def deptOf (services : List (String × Service)) (d : String) : List String :=
  ((sortedDeps services).filter (fun p => p.2.contains d)).map Prod.fst

theorem sortedDeps_eq (services : List (String × Service)) :
    sortedDeps services
      = services.map (fun p => (p.1, sortStrings (dependsKeys p.2))) := by
  unfold sortedDeps
  rw [List.map_map]
  rfl

theorem sortedDeps_lookup (services : List (String × Service)) (n : String) :
    (sortedDeps services).lookup n
      = (services.lookup n).map (fun svc => sortStrings (dependsKeys svc)) := by
  rw [sortedDeps_eq]
  exact lookup_map_pair (fun p => sortStrings (dependsKeys p.2)) services n

theorem keysOf_sortedDeps (services : List (String × Service)) :
    keysOf (sortedDeps services) = keysOf services := by
  rw [sortedDeps_eq]
  exact keysOf_map_pair _ services

theorem depFOf_of_lookup {services : List (String × Service)} {n : String}
    {svc : Service} (h : services.lookup n = some svc) :
    depFOf services n = sortStrings (dependsKeys svc) := by
  unfold depFOf svcDeps
  rw [h]

theorem depFOf_of_not_mem {services : List (String × Service)} {n : String}
    (h : n ∉ keysOf services) : depFOf services n = [] := by
  unfold depFOf svcDeps
  rw [(lookup_eq_none_iff services n).mpr h]
  rfl

theorem graphOk_of {services : List (String × Service)}
    (hkn : KeysNodup services) (hdn : DepsNodup services)
    (had : AllDeclared services) :
    GraphOk (keysOf services) (depFOf services) (deptOf services) := by
  have hlookup_mem : ∀ {n : String}, n ∈ keysOf services →
      ∃ svc, services.lookup n = some svc ∧ (n, svc) ∈ services := by
    intro n hn
    have hs := (lookup_isSome_iff services n).mpr hn
    cases hl : services.lookup n with
    | none => rw [hl] at hs; simp at hs
    | some svc => exact ⟨svc, rfl, mem_of_lookup_eq_some hl⟩
  refine ⟨hkn, ?_, ?_, ?_, ?_⟩
  · intro n
    unfold depFOf svcDeps
    cases hl : services.lookup n with
    | none => exact sortStrings_nodup List.nodup_nil
    | some svc =>
      exact sortStrings_nodup (hdn (n, svc) (mem_of_lookup_eq_some hl))
  · intro n hn d hd
    obtain ⟨svc, hl, hm⟩ := hlookup_mem hn
    rw [depFOf_of_lookup hl, mem_sortStrings] at hd
    exact had (n, svc) hm d hd
  · intro c n
    constructor
    · intro h
      obtain ⟨p, hpf, hfst⟩ := List.mem_map.mp h
      obtain ⟨hpd, hpc⟩ := List.mem_filter.mp hpf
      rw [sortedDeps_eq] at hpd
      obtain ⟨q, hq, hqe⟩ := List.mem_map.mp hpd
      have hn_names : n ∈ keysOf services := by
        rw [← hfst, ← hqe]
        exact List.mem_map.mpr ⟨q, hq, rfl⟩
      refine ⟨hn_names, ?_⟩
      have hlq : services.lookup q.1 = some q.2 := by
        have : (q.1, q.2) ∈ services := by simpa using hq
        exact lookup_eq_some_of_mem hkn this
      have hdef : depFOf services n = sortStrings (dependsKeys q.2) := by
        rw [← hfst, ← hqe]
        exact depFOf_of_lookup hlq
      rw [hdef]
      have : c ∈ p.2 := List.elem_iff.mp hpc
      rw [← hqe] at this
      exact this
    · rintro ⟨hn, hc⟩
      obtain ⟨svc, hl, hm⟩ := hlookup_mem hn
      have hpmem : (n, sortStrings (dependsKeys svc)) ∈ sortedDeps services := by
        rw [sortedDeps_eq]
        exact List.mem_map.mpr ⟨(n, svc), hm, rfl⟩
      have hcontain : (sortStrings (dependsKeys svc)).contains c = true := by
        rw [depFOf_of_lookup hl] at hc
        exact List.elem_iff.mpr hc
      exact List.mem_map.mpr
        ⟨(n, sortStrings (dependsKeys svc)),
         List.mem_filter.mpr ⟨hpmem, hcontain⟩, rfl⟩
  · intro c
    unfold deptOf
    have h1 : ((sortedDeps services).filter (fun p => p.2.contains c)).map Prod.fst
        |>.Sublist (keysOf (sortedDeps services)) :=
      List.Sublist.map Prod.fst (List.filter_sublist _)
    rw [keysOf_sortedDeps] at h1
    exact h1.nodup hkn

/-- The in-degree map seeded at `graph.go` lines 39-50. -/
def inDeg0Of (services : List (String × Service)) : List (String × Int) :=
  (sortedDeps services).map (fun p => (p.1, (p.2.length : Int)))

/-- The initial ready queue of `graph.go` lines 52-59. -/
def queue0Of (services : List (String × Service)) : List String :=
  sortStrings (((inDeg0Of services).filter (fun p => p.2 == 0)).map Prod.fst)

theorem keysOf_inDeg0Of (services : List (String × Service)) :
    keysOf (inDeg0Of services) = keysOf services := by
  unfold inDeg0Of
  rw [keysOf_map_pair, keysOf_sortedDeps]

theorem lookupInt_inDeg0Of {services : List (String × Service)} {n : String}
    {svc : Service} (h : services.lookup n = some svc) :
    lookupInt (inDeg0Of services) n = ((depFOf services n).length : Int) := by
  unfold inDeg0Of lookupInt
  rw [lookup_map_pair (fun p => ((p.2.length : Int))) (sortedDeps services) n,
      sortedDeps_lookup, h, depFOf_of_lookup h]
  rfl

theorem kahn_init {services : List (String × Service)}
    (hkn : KeysNodup services) :
    KInv (keysOf services) (depFOf services) (inDeg0Of services)
      (queue0Of services) [] := by
  have hkeys := keysOf_inDeg0Of services
  have hknd : KeysNodup (inDeg0Of services) := by
    unfold KeysNodup
    rw [hkeys]
    exact hkn
  have hlookup_mem : ∀ {n : String}, n ∈ keysOf services →
      ∃ svc, services.lookup n = some svc := by
    intro n hn
    have hs := (lookup_isSome_iff services n).mpr hn
    cases hl : services.lookup n with
    | none => rw [hl] at hs; simp at hs
    | some svc => exact ⟨svc, rfl⟩
  have hq0_iff : ∀ n, n ∈ queue0Of services ↔
      (n ∈ keysOf services ∧ lookupInt (inDeg0Of services) n = 0) := by
    intro n
    unfold queue0Of
    rw [mem_sortStrings]
    constructor
    · intro h
      obtain ⟨p, hpf, hfst⟩ := List.mem_map.mp h
      obtain ⟨hpi, hp0⟩ := List.mem_filter.mp hpf
      have hn : n ∈ keysOf (inDeg0Of services) := by
        rw [← hfst]
        exact List.mem_map.mpr ⟨p, hpi, rfl⟩
      have hl : (inDeg0Of services).lookup n = some p.2 := by
        apply lookup_eq_some_of_mem hknd
        rw [← hfst]
        exact (by simpa using hpi)
      refine ⟨hkeys ▸ hn, ?_⟩
      unfold lookupInt
      rw [hl]
      simpa using hp0
    · rintro ⟨hn, hz⟩
      have hn2 : n ∈ keysOf (inDeg0Of services) := hkeys ▸ hn
      have hs := (lookup_isSome_iff (inDeg0Of services) n).mpr hn2
      cases hl : (inDeg0Of services).lookup n with
      | none => rw [hl] at hs; simp at hs
      | some v =>
        have hv : v = 0 := by
          have : lookupInt (inDeg0Of services) n = v := by
            unfold lookupInt
            rw [hl]
            rfl
          omega
        refine List.mem_map.mpr ⟨(n, v), List.mem_filter.mpr ⟨mem_of_lookup_eq_some hl, ?_⟩, rfl⟩
        simp [hv]
  have hq0_sub : ∀ n ∈ queue0Of services, n ∈ keysOf services :=
    fun n hn => ((hq0_iff n).mp hn).1
  have hq0_nd : (queue0Of services).Nodup := by
    unfold queue0Of
    apply sortStrings_nodup
    have h1 : ((inDeg0Of services).filter (fun p => p.2 == 0)).map Prod.fst
        |>.Sublist (keysOf (inDeg0Of services)) :=
      List.Sublist.map Prod.fst (List.filter_sublist _)
    rw [hkeys] at h1
    exact h1.nodup hkn
  have hdeg : ∀ n ∈ keysOf services,
      lookupInt (inDeg0Of services) n = ((depFOf services n).length : Int) := by
    intro n hn
    obtain ⟨svc, hl⟩ := hlookup_mem hn
    exact lookupInt_inDeg0Of hl
  constructor
  case keys_eq => exact hkeys
  case deg =>
    intro n hn
    rw [hdeg n hn]
    have hfil : (depFOf services n).filter (fun d => d ∉ ([] : List String))
        = depFOf services n :=
      List.filter_eq_self.mpr (fun a _ => by simp)
    rw [hfil]
  case nodup => simpa using hq0_nd
  case subset => simpa using hq0_sub
  case queue_done =>
    intro n hn d hd
    have hz := ((hq0_iff n).mp hn).2
    have hname := ((hq0_iff n).mp hn).1
    rw [hdeg n hname] at hz
    have hlen : (depFOf services n).length = 0 := by exact_mod_cast hz
    rw [List.length_eq_zero.mp hlen] at hd
    cases hd
  case pending =>
    intro n hn _ hnq
    have hne : depFOf services n ≠ [] := by
      intro hnil
      apply hnq
      refine (hq0_iff n).mpr ⟨hn, ?_⟩
      rw [hdeg n hn, hnil]
      rfl
    obtain ⟨d, hd⟩ := List.exists_mem_of_ne_nil _ hne
    exact ⟨d, hd, by simp⟩
  case topo =>
    intro s hs
    cases hs

/-- Master lemma: on well-formed input with all dependency references
declared, `ResolveOrder` runs the Kahn loop to completion and returns
either the emitted order (when complete) or the cycle error built from the
services left with positive in-degree. -/
theorem resolveOrder_run {services : List (String × Service)}
    (hkn : KeysNodup services) (hdn : DepsNodup services)
    (had : AllDeclared services) :
    ∃ orderF inDegF,
      KInv (keysOf services) (depFOf services) inDegF [] orderF ∧
      (orderF.length = services.length → ResolveOrder services = Except.ok orderF) ∧
      (orderF.length ≠ services.length →
        ResolveOrder services = Except.error (cycleMsg (sortStrings
          ((inDegF.filter (fun p => 0 < p.2)).map Prod.fst)))) := by
  have hbd : buildDeps services services
      = Except.ok (services.map (fun p => (p.1, dependsKeys p.2))) :=
    buildDeps_ok had
  have hro : ResolveOrder services
      = runKahn (services.map (fun p => (p.1, dependsKeys p.2))) := by
    unfold ResolveOrder
    rw [hbd]
    rfl
  have hgo := graphOk_of hkn hdn had
  have hinit := kahn_init (hkn : KeysNodup services)
  have hfuel : (keysOf services).length < ([] : List String).length
      + ((services.map (fun p => (p.1, dependsKeys p.2))).length + 1) := by
    simp [keysOf]
  have hrun := kahn_run hgo
    ((services.map (fun p => (p.1, dependsKeys p.2))).length + 1)
    (inDeg0Of services) (queue0Of services) [] hinit hfuel
  have hreq : ResolveOrder services
      = (if (kahnLoop (deptOf services)
              ((services.map (fun p => (p.1, dependsKeys p.2))).length + 1)
              (inDeg0Of services) (queue0Of services) []).1.length
            ≠ (services.map (fun p => (p.1, dependsKeys p.2))).length
         then Except.error (cycleMsg (sortStrings
            (((kahnLoop (deptOf services)
                ((services.map (fun p => (p.1, dependsKeys p.2))).length + 1)
                (inDeg0Of services) (queue0Of services) []).2.filter
              (fun p => 0 < p.2)).map Prod.fst)))
         else Except.ok (kahnLoop (deptOf services)
            ((services.map (fun p => (p.1, dependsKeys p.2))).length + 1)
            (inDeg0Of services) (queue0Of services) []).1) := by
    rw [hro]
    rfl
  have hml : (services.map (fun p => (p.1, dependsKeys p.2))).length
      = services.length := List.length_map _ _
  rw [hml] at hreq hrun
  refine ⟨_, _, hrun, ?_, ?_⟩
  · intro hleneq
    rw [hreq, if_neg (by simpa using hleneq)]
  · intro hlenne
    rw [hreq, if_pos hlenne]

/-! ### Claim C1 -/

/-- C1: for every services mapping whose dependency graph is acyclic and
whose `dependsOn` entries reference only declared services, `ResolveOrder`
returns an ordered sequence containing every service name exactly once
(a permutation of the duplicate-free name list), such that for every
service `S` with a dependency on `D`, `D` appears strictly before `S` in
the output. -/
theorem C1_resolve_order_topological (services : List (String × Service))
    (hkn : KeysNodup services) (hdn : DepsNodup services)
    (had : AllDeclared services) (hacyc : AcyclicDeps services) :
    ∃ order, ResolveOrder services = Except.ok order ∧
      order.Perm (keysOf services) ∧
      ∀ s svc, (s, svc) ∈ services → ∀ d ∈ dependsKeys svc,
        order.indexOf d < order.indexOf s := by
  obtain ⟨orderF, inDegF, hinv, hok, _⟩ := resolveOrder_run hkn hdn had
  have hsub : ∀ x ∈ orderF, x ∈ keysOf services :=
    fun x hx => hinv.subset x (by simpa using hx)
  have hnd : orderF.Nodup := by
    have := hinv.nodup
    simpa using this
  have hcomplete : ∀ n ∈ keysOf services, n ∈ orderF := by
    by_contra hcon
    push_neg at hcon
    obtain ⟨n0, hn0, hn0no⟩ := hcon
    have hRne : Set.Nonempty {n | n ∈ keysOf services ∧ n ∉ orderF} :=
      ⟨n0, hn0, hn0no⟩
    obtain ⟨m, ⟨hmk, hmno⟩, hmin⟩ := hacyc.has_min _ hRne
    obtain ⟨d, hd, hdno⟩ := hinv.pending m hmk hmno (by simp)
    have hedge : DepEdge services d m := by
      have := hd
      unfold depFOf at this
      rw [mem_sortStrings] at this
      exact this
    have hdk : d ∈ keysOf services :=
      (graphOk_of hkn hdn had).depF_sub m hmk d hd
    exact hmin d ⟨hdk, hdno⟩ hedge
  have hperm : orderF.Perm (keysOf services) :=
    (List.perm_ext_iff_of_nodup hnd hkn).mpr
      (fun a => ⟨fun h => hsub a h, fun h => hcomplete a h⟩)
  have hlen : orderF.length = services.length := by
    have h1 := hperm.length_eq
    unfold keysOf at h1
    rw [List.length_map] at h1
    exact h1
  refine ⟨orderF, hok hlen, hperm, ?_⟩
  intro s svc hm d hd
  have hls : services.lookup s = some svc := lookup_eq_some_of_mem hkn hm
  have hdepf : d ∈ depFOf services s := by
    rw [depFOf_of_lookup hls, mem_sortStrings]
    exact hd
  have hs_in : s ∈ orderF := hcomplete s (List.mem_map.mpr ⟨(s, svc), hm, rfl⟩)
  exact (hinv.topo s hs_in d hdepf).2

/-- Service with the given (already normalized) dependency names, used in
concrete examples. -/
def svcWithDeps (deps : List String) : Service :=
  { dependsOn := GoVal.vcondMap
      (deps.map (fun d => (d, ⟨"service_started", false⟩))) }

/-- The linear-chain example of `graph_test.go` (`TestResolveOrder_LinearChain`). -/
def exChain : List (String × Service) :=
  [("a", svcWithDeps ["b"]), ("b", svcWithDeps ["c"]), ("c", svcWithDeps [])]

/-- A rank function witnessing the acyclicity of `exChain`. -/
def exChainRank : String → Nat :=
  fun s => if s = "a" then 2 else if s = "b" then 1 else 0

theorem exChain_acyclic : AcyclicDeps exChain := by
  have hsub : Subrelation (DepEdge exChain) (InvImage Nat.lt exChainRank) := by
    intro d s h
    unfold DepEdge svcDeps at h
    by_cases h1 : s = "a"
    · subst h1
      simp only [exChain, svcWithDeps, dependsKeys, List.lookup] at h
      simp at h
      subst h
      exact Nat.lt_of_sub_eq_succ rfl
    · by_cases h2 : s = "b"
      · subst h2
        simp only [exChain, svcWithDeps, dependsKeys, List.lookup] at h
        simp at h
        subst h
        have : exChainRank "c" = 0 := rfl
        have : exChainRank "b" = 1 := rfl
        exact Nat.lt_of_sub_eq_succ rfl
      · by_cases h3 : s = "c"
        · subst h3
          simp only [exChain, svcWithDeps, dependsKeys, List.lookup] at h
          simp at h
        · simp only [exChain, List.lookup,
            show (s == "a") = false by simp [h1],
            show (s == "b") = false by simp [h2],
            show (s == "c") = false by simp [h3]] at h
          simp at h
  exact Subrelation.wf hsub (InvImage.wf exChainRank Nat.lt_wfRel.wf)

/-- Witness for C1 at the concrete linear chain `a` depends on `b` depends
on `c`: the hypotheses are satisfiable and the returned order is a
dependency-respecting permutation. -/
theorem C1_witness :
    ∃ order, ResolveOrder exChain = Except.ok order ∧
      order.Perm (keysOf exChain) ∧
      ∀ s svc, (s, svc) ∈ exChain → ∀ d ∈ dependsKeys svc,
        order.indexOf d < order.indexOf s :=
  C1_resolve_order_topological exChain (by decide) (by decide) (by decide)
    exChain_acyclic

/-! ### Claim C4 -/

/-- The two-node mutual dependency of `TestResolveOrder_CycleDetection`. -/
def exMutual : List (String × Service) :=
  [("a", svcWithDeps ["b"]), ("b", svcWithDeps ["a"])]

/-- A service depending on itself. -/
def exSelf : List (String × Service) :=
  [("a", svcWithDeps ["a"])]

/-- C4: when no topological ordering exists, `ResolveOrder` fails with the
cycle error enumerating, sorted by name, exactly the services that cannot
be started (those left with non-zero in-degree after queue exhaustion);
in particular the mutual dependency of `a` and `b` reports exactly
`[a b]`, and a self-dependency is reported as a one-node cycle. -/
theorem C4_cycle_error :
    (∀ services : List (String × Service),
      KeysNodup services → DepsNodup services → AllDeclared services →
      ¬ TopoOrderExists services →
      ∃ cycled, ResolveOrder services = Except.error (cycleMsg cycled) ∧
        cycled.Sorted (fun a b => strLe a b = true) ∧
        ∀ n, n ∈ cycled ↔ (n ∈ keysOf services ∧ ¬ Startable services n)) ∧
    ResolveOrder exMutual = Except.error
      "dependency cycle detected among services: [a b]" ∧
    ResolveOrder exSelf = Except.error
      "dependency cycle detected among services: [a]" := by
  refine ⟨?_, by rfl, by rfl⟩
  intro services hkn hdn had hnotopo
  obtain ⟨orderF, inDegF, hinv, hok, herr⟩ := resolveOrder_run hkn hdn had
  have hsub : ∀ x ∈ orderF, x ∈ keysOf services :=
    fun x hx => hinv.subset x (by simpa using hx)
  have hnd : orderF.Nodup := by
    have := hinv.nodup
    simpa using this
  have hkeyslen : (keysOf services).length = services.length := by
    unfold keysOf
    exact List.length_map _ _
  have hlenne : orderF.length ≠ services.length := by
    intro hlen
    apply hnotopo
    have hperm : orderF.Perm (keysOf services) :=
      (List.Nodup.subperm hnd hsub).perm_of_length_le (by omega)
    refine ⟨orderF, hperm, ?_⟩
    intro s svc hm d hd
    have hls : services.lookup s = some svc := lookup_eq_some_of_mem hkn hm
    have hdepf : d ∈ depFOf services s := by
      rw [depFOf_of_lookup hls, mem_sortStrings]
      exact hd
    have hs_in : s ∈ orderF :=
      hperm.mem_iff.mpr (List.mem_map.mpr ⟨(s, svc), hm, rfl⟩)
    exact (hinv.topo s hs_in d hdepf).2
  refine ⟨_, herr hlenne, sortStrings_sorted _, ?_⟩
  -- membership characterization of the reported cycle list
  have hkinDeg : KeysNodup inDegF := by
    unfold KeysNodup
    rw [hinv.keys_eq]
    exact hkn
  have hmem_pos : ∀ n, n ∈ (inDegF.filter (fun p => 0 < p.2)).map Prod.fst
      ↔ (n ∈ keysOf services ∧ 0 < lookupInt inDegF n) := by
    intro n
    constructor
    · intro h
      obtain ⟨p, hpf, hfst⟩ := List.mem_map.mp h
      obtain ⟨hpi, hppos⟩ := List.mem_filter.mp hpf
      have hnk : n ∈ keysOf inDegF := by
        rw [← hfst]
        exact List.mem_map.mpr ⟨p, hpi, rfl⟩
      have hl : inDegF.lookup n = some p.2 := by
        apply lookup_eq_some_of_mem hkinDeg
        rw [← hfst]
        simpa using hpi
      refine ⟨hinv.keys_eq ▸ hnk, ?_⟩
      unfold lookupInt
      rw [hl]
      simpa using hppos
    · rintro ⟨hn, hpos⟩
      have hn2 : n ∈ keysOf inDegF := by rw [hinv.keys_eq]; exact hn
      have hs := (lookup_isSome_iff inDegF n).mpr hn2
      cases hl : inDegF.lookup n with
      | none => rw [hl] at hs; simp at hs
      | some v =>
        have hv : 0 < v := by
          have : lookupInt inDegF n = v := by
            unfold lookupInt
            rw [hl]
            rfl
          omega
        exact List.mem_map.mpr
          ⟨(n, v), List.mem_filter.mpr ⟨mem_of_lookup_eq_some hl, by simpa using hv⟩, rfl⟩
  have hpos_iff : ∀ n ∈ keysOf services,
      (0 < lookupInt inDegF n ↔ n ∉ orderF) := by
    intro n hn
    rw [hinv.deg n hn]
    constructor
    · intro hpos hmem
      have hnil : (depFOf services n).filter (fun d => d ∉ orderF) = [] := by
        rw [List.filter_eq_nil_iff]
        intro d hd
        simp [(hinv.topo n hmem d hd).1]
      rw [hnil] at hpos
      simp at hpos
    · intro hno
      obtain ⟨d, hd, hdno⟩ := hinv.pending n hn hno (by simp)
      have hdf : d ∈ (depFOf services n).filter (fun x => x ∉ orderF) :=
        List.mem_filter.mpr ⟨hd, by simpa using hdno⟩
      have : 0 < ((depFOf services n).filter (fun x => x ∉ orderF)).length :=
        List.length_pos.mpr (List.ne_nil_of_mem hdf)
      exact_mod_cast this
  have hfwd : ∀ k, ∀ n, n ∈ orderF → orderF.indexOf n = k → Startable services n := by
    intro k
    induction k using Nat.strong_induction_on with
    | _ k ih =>
      intro n hn hidx
      have hnk : n ∈ keysOf services := hsub n hn
      refine Startable.mk n hnk ?_
      intro d hd
      have hdepf : d ∈ depFOf services n := by
        unfold depFOf
        rw [mem_sortStrings]
        exact hd
      obtain ⟨hdin, hdlt⟩ := hinv.topo n hn d hdepf
      exact ih (orderF.indexOf d) (hidx ▸ hdlt) d hdin rfl
  have hbwd : ∀ n, Startable services n → n ∈ orderF := by
    intro n hst
    induction hst with
    | mk n hnk hdeps ih =>
      by_contra hno
      obtain ⟨d, hd, hdno⟩ := hinv.pending n hnk hno (by simp)
      have hd2 : d ∈ svcDeps services n := by
        unfold depFOf at hd
        rw [mem_sortStrings] at hd
        exact hd
      exact hdno (ih d hd2)
  intro n
  rw [mem_sortStrings, hmem_pos n]
  constructor
  · rintro ⟨hn, hpos⟩
    refine ⟨hn, ?_⟩
    intro hst
    exact ((hpos_iff n hn).mp hpos) (hbwd n hst)
  · rintro ⟨hn, hnst⟩
    refine ⟨hn, (hpos_iff n hn).mpr ?_⟩
    intro hmem
    exact hnst (hfwd (orderF.indexOf n) n hmem rfl)

theorem exMutual_no_topo : ¬ TopoOrderExists exMutual := by
  rintro ⟨l, _, htopo⟩
  have h1 := htopo "a" (svcWithDeps ["b"]) (List.mem_cons_self _ _) "b"
    (by simp [svcWithDeps, dependsKeys])
  have h2 := htopo "b" (svcWithDeps ["a"])
    (List.mem_cons_of_mem _ (List.mem_cons_self _ _)) "a"
    (by simp [svcWithDeps, dependsKeys])
  omega

/-- Witness for C4 at the mutual dependency of `a` and `b`: the
hypotheses are satisfiable and the cycle error names exactly the two
non-startable services. -/
theorem C4_witness :
    ¬ TopoOrderExists exMutual ∧
    ∃ cycled, ResolveOrder exMutual = Except.error (cycleMsg cycled) ∧
      cycled.Sorted (fun a b => strLe a b = true) ∧
      ∀ n, n ∈ cycled ↔ (n ∈ keysOf exMutual ∧ ¬ Startable exMutual n) :=
  ⟨exMutual_no_topo,
   C4_cycle_error.1 exMutual (by decide) (by decide) (by decide) exMutual_no_topo⟩

/-! ### Claim C2: permutation invariance

The list order of the association list models the nondeterministic
iteration order of the Go map; two permuted lists model two iterations
over the same map value. -/

/-- Two in-degree maps that are permutations of each other with distinct
keys: they represent the same Go `map[string]int` seen in two iteration
orders. -/
def SimDeg (i1 i2 : List (String × Int)) : Prop :=
  i1.Perm i2 ∧ KeysNodup i1

theorem SimDeg.lookup_eq {i1 i2 : List (String × Int)} (h : SimDeg i1 i2)
    (k : String) : lookupInt i1 k = lookupInt i2 k := by
  unfold lookupInt
  rw [lookup_eq_of_perm h.1 h.2]

theorem SimDeg.decr {i1 i2 : List (String × Int)} (h : SimDeg i1 i2)
    (k : String) : SimDeg (mapDecr i1 k) (mapDecr i2 k) := by
  obtain ⟨hp, hnd⟩ := h
  have hkeys : keysOf i1 = List.map Prod.fst i1 := rfl
  by_cases hk : k ∈ keysOf i1
  · have hk2 : k ∈ keysOf i2 := (hp.map Prod.fst).mem_iff.mp hk
    rw [mapDecr_eq_map hk, mapDecr_eq_map hk2]
    constructor
    · exact hp.map _
    · unfold KeysNodup
      rw [keysOf_map_pair]
      exact hnd
  · have hk2 : k ∉ keysOf i2 := fun hc => hk ((hp.map Prod.fst).mem_iff.mpr hc)
    have hb1 : mapDecr i1 k = i1 ++ [(k, -1)] := by
      unfold Dctl.mapDecr
      rw [if_neg]
      intro hc
      obtain ⟨p, hpm, hpe⟩ := List.any_eq_true.mp hc
      exact hk (List.mem_map.mpr ⟨p, hpm, by simpa using hpe⟩)
    have hb2 : mapDecr i2 k = i2 ++ [(k, -1)] := by
      unfold Dctl.mapDecr
      rw [if_neg]
      intro hc
      obtain ⟨p, hpm, hpe⟩ := List.any_eq_true.mp hc
      exact hk2 (List.mem_map.mpr ⟨p, hpm, by simpa using hpe⟩)
    rw [hb1, hb2]
    constructor
    · exact hp.append_right _
    · unfold KeysNodup keysOf
      rw [List.map_append]
      rw [List.nodup_append]
      refine ⟨hnd, by simp, ?_⟩
      intro x hx hx2
      simp only [List.map_cons, List.map_nil, List.mem_singleton] at hx2
      exact hk (hx2 ▸ hx)

theorem processChildren_sim :
    ∀ (children : List String) (i1 i2 : List (String × Int)) (q : List String),
    SimDeg i1 i2 →
    SimDeg (processChildren children i1 q).1 (processChildren children i2 q).1 ∧
    (processChildren children i1 q).2 = (processChildren children i2 q).2 := by
  intro children
  induction children with
  | nil => intro i1 i2 q h; exact ⟨h, rfl⟩
  | cons c cs ih =>
    intro i1 i2 q h
    have hsd := h.decr c
    have hl := hsd.lookup_eq c
    simp only [processChildren, hl]
    by_cases hc : lookupInt (mapDecr i2 c) c == 0
    · simp only [hc, if_true]
      exact ih _ _ _ hsd
    · simp only [hc, if_false]
      exact ih _ _ _ hsd

theorem kahnLoop_sim (dept1 dept2 : String → List String)
    (hdept : ∀ c, sortStrings (dept1 c) = sortStrings (dept2 c)) :
    ∀ (fuel : Nat) (i1 i2 : List (String × Int)) (queue order : List String),
    SimDeg i1 i2 →
    (kahnLoop dept1 fuel i1 queue order).1 = (kahnLoop dept2 fuel i2 queue order).1 ∧
    SimDeg (kahnLoop dept1 fuel i1 queue order).2 (kahnLoop dept2 fuel i2 queue order).2 := by
  intro fuel
  induction fuel with
  | zero => intro i1 i2 queue order h; exact ⟨rfl, h⟩
  | succ fuel ih =>
    intro i1 i2 queue order h
    match queue with
    | [] => exact ⟨rfl, h⟩
    | current :: rest =>
      obtain ⟨hs, hq⟩ := processChildren_sim (sortStrings (dept1 current)) i1 i2 rest h
      simp only [kahnLoop, hdept current] at hs hq ⊢
      rw [hq]
      exact ih _ _ _ _ hs

theorem runKahn_perm {d1 d2 : List (String × List String)}
    (hp : d1.Perm d2) (hnd : KeysNodup d1) : runKahn d1 = runKahn d2 := by
  have hdp : (d1.map (fun p => (p.1, sortStrings p.2))).Perm
      (d2.map (fun p => (p.1, sortStrings p.2))) := hp.map _
  have hsim : SimDeg
      ((d1.map (fun p => (p.1, sortStrings p.2))).map (fun p => (p.1, (p.2.length : Int))))
      ((d2.map (fun p => (p.1, sortStrings p.2))).map (fun p => (p.1, (p.2.length : Int)))) := by
    constructor
    · exact hdp.map _
    · unfold KeysNodup
      rw [keysOf_map_pair, keysOf_map_pair]
      exact hnd
  have hq0 : sortStrings
      ((((d1.map (fun p => (p.1, sortStrings p.2))).map
          (fun p => (p.1, (p.2.length : Int)))).filter (fun p => p.2 == 0)).map Prod.fst)
      = sortStrings
      ((((d2.map (fun p => (p.1, sortStrings p.2))).map
          (fun p => (p.1, (p.2.length : Int)))).filter (fun p => p.2 == 0)).map Prod.fst) :=
    sortStrings_eq_of_perm (((hsim.1).filter _).map _)
  have hdept : ∀ c, sortStrings
      (((d1.map (fun p => (p.1, sortStrings p.2))).filter
        (fun p => p.2.contains c)).map Prod.fst)
      = sortStrings
      (((d2.map (fun p => (p.1, sortStrings p.2))).filter
        (fun p => p.2.contains c)).map Prod.fst) :=
    fun c => sortStrings_eq_of_perm ((hdp.filter _).map _)
  have hlen : d1.length = d2.length := hp.length_eq
  simp only [runKahn]
  rw [hlen, hq0]
  obtain ⟨ho, hs⟩ := kahnLoop_sim _ _ hdept (d2.length + 1) _ _
    (sortStrings
      ((((d2.map (fun p => (p.1, sortStrings p.2))).map
          (fun p => (p.1, (p.2.length : Int)))).filter (fun p => p.2 == 0)).map Prod.fst))
    [] hsim
  rw [ho]
  refine if_congr Iff.rfl ?_ rfl
  exact congrArg Except.error (congrArg cycleMsg
    (sortStrings_eq_of_perm ((hs.1.filter _).map _)))

/-- C2 (amended): for a fixed services mapping in which every dependency
reference is declared, `ResolveOrder` is invariant under the iteration
order of the mapping: any permutation of the association list yields the
identical result. -/
theorem C2_resolve_order_order_independent (l1 l2 : List (String × Service))
    (hkn : KeysNodup l1) (hp : l1.Perm l2) (had : AllDeclared l1) :
    ResolveOrder l1 = ResolveOrder l2 := by
  have hkn2 : KeysNodup l2 := (hp.map Prod.fst).nodup_iff.mp hkn
  have had2 : AllDeclared l2 := by
    intro p hpm d hd
    have h1 := had p (hp.mem_iff.mpr hpm) d hd
    exact (hp.map Prod.fst).mem_iff.mp h1
  have hb1 := @buildDeps_ok l1 l1 had
  have hb2 := @buildDeps_ok l2 l2 had2
  unfold ResolveOrder
  rw [hb1, hb2]
  show runKahn (l1.map (fun p => (p.1, dependsKeys p.2)))
      = runKahn (l2.map (fun p => (p.1, dependsKeys p.2)))
  apply runKahn_perm (hp.map _)
  unfold KeysNodup
  rw [keysOf_map_pair]
  exact hkn

/-- Two iteration orders of a mapping with two undefined references. -/
def exUndefA : List (String × Service) :=
  [("a", svcWithDeps ["x"]), ("b", svcWithDeps ["y"])]

/-- The other iteration order of the same mapping. -/
def exUndefB : List (String × Service) :=
  [("b", svcWithDeps ["y"]), ("a", svcWithDeps ["x"])]

/-- Counterexample to C2 as stated: on a mapping with two undefined
dependency references, two iteration orders of the same mapping yield
different errors (each names the first undefined reference encountered),
so errors are not identical across invocations. -/
theorem C2_counterexample :
    exUndefA.Perm exUndefB ∧ ResolveOrder exUndefA ≠ ResolveOrder exUndefB := by
  constructor
  · exact List.Perm.swap _ _ _
  · have e1 : ResolveOrder exUndefA
        = Except.error (undefinedDepMsg "a" "x") := rfl
    have e2 : ResolveOrder exUndefB
        = Except.error (undefinedDepMsg "b" "y") := rfl
    intro h
    rw [e1, e2] at h
    injection h with hs
    exact absurd hs (by decide)

/-- A well-formed two-service mapping and its other iteration order. -/
def exDetA : List (String × Service) :=
  [("a", svcWithDeps ["b"]), ("b", svcWithDeps [])]

/-- The other iteration order of `exDetA`. -/
def exDetB : List (String × Service) :=
  [("b", svcWithDeps []), ("a", svcWithDeps ["b"])]

/-- Witness for the amended C2 at a concrete mapping: both iteration
orders give the identical result. -/
theorem C2_witness : ResolveOrder exDetA = ResolveOrder exDetB :=
  C2_resolve_order_order_independent exDetA exDetB (by decide)
    (List.Perm.swap _ _ _) (by decide)

/-! ### Claim C3: the queue discipline -/

/-- Modelled from the spec (§4.4 step 4): the Kahn loop with the ready
queue kept sorted at every step, so that the lexicographically smallest
queued name is always removed next.  This is the queue discipline the
specification describes; the code's `kahnLoop` instead appends
newly-ready services at the back of a FIFO queue without re-sorting. -/
def specKahnLoop (dependents : String → List String) :
    Nat → List (String × Int) → List String → List String →
    List String × List (String × Int)
  | 0, inDeg, _, order => (order, inDeg)
  | Nat.succ fuel, inDeg, queue, order =>
    match queue with
    | [] => (order, inDeg)
    | current :: rest =>
      let children := sortStrings (dependents current)
      let r := processChildren children inDeg rest
      specKahnLoop dependents fuel r.1 (sortStrings r.2) (order ++ [current])

/-- Modelled from the spec: `runKahn` with the sorted-queue loop. -/
def specRunKahn (deps0 : List (String × List String)) : Except String (List String) :=
  let deps := deps0.map (fun p => (p.1, sortStrings p.2))
  let inDeg0 : List (String × Int) := deps.map (fun p => (p.1, (p.2.length : Int)))
  let dependents : String → List String :=
    fun d => (deps.filter (fun p => p.2.contains d)).map Prod.fst
  let queue0 := sortStrings ((inDeg0.filter (fun p => p.2 == 0)).map Prod.fst)
  let res := specKahnLoop dependents (deps0.length + 1) inDeg0 queue0 []
  if res.1.length ≠ deps0.length then
    Except.error (cycleMsg (sortStrings
      ((res.2.filter (fun p => 0 < p.2)).map Prod.fst)))
  else
    Except.ok res.1

/-- Modelled from the spec: `ResolveOrder` with the sorted-queue loop. -/
def specResolveOrder (services : List (String × Service)) :
    Except String (List String) := do
  let deps ← buildDeps services services
  specRunKahn deps

/-- Three services: `m` and `z` are ready immediately, `a` becomes ready
once `m` is emitted.  The FIFO queue then holds `[z, a]`, so the code
removes `z` before the smaller name `a`. -/
def exFifo : List (String × Service) :=
  [("a", svcWithDeps ["m"]), ("m", svcWithDeps []), ("z", svcWithDeps [])]

/-- Counterexample to C3 as stated: the code's removal order is not the
sorted-queue order the claim describes.  After `m` is emitted both `a`
and `z` are ready with `a < z`, yet the code removes `z` first, so the
output differs from the sorted-queue variant modelled from the spec. -/
theorem C3_counterexample :
    ResolveOrder exFifo = Except.ok ["m", "z", "a"] ∧
    specResolveOrder exFifo = Except.ok ["m", "a", "z"] ∧
    ResolveOrder exFifo ≠ specResolveOrder exFifo := by
  refine ⟨rfl, rfl, ?_⟩
  have e1 : ResolveOrder exFifo = Except.ok ["m", "z", "a"] := rfl
  have e2 : specResolveOrder exFifo = Except.ok ["m", "a", "z"] := rfl
  intro h
  rw [e1, e2] at h
  injection h with hs
  exact absurd hs (by decide)

/-- C3 (amended): whenever services reach in-degree zero they are
appended at the back of the FIFO queue; within one step the appended
batch is a sublist of the sorted dependents of the removed service and is
therefore itself sorted by name, but the queue as a whole is not kept or
re-sorted, so an earlier-queued larger name is removed before a
later-readied smaller one (as the `exFifo` run shows). -/
theorem C3_enqueue_sorted_batch :
    (∀ (cs : List String) (inDeg : List (String × Int)) (queue : List String),
      ∃ d batch,
        processChildren (sortStrings cs) inDeg queue = (d, queue ++ batch) ∧
        batch.Sublist (sortStrings cs) ∧
        batch.Sorted (fun a b => strLe a b = true)) ∧
    ResolveOrder exFifo = Except.ok ["m", "z", "a"] := by
  constructor
  · have key : ∀ (l : List String) (i : List (String × Int)) (q : List String),
        ∃ d b, processChildren l i q = (d, q ++ b) ∧ b.Sublist l := by
      intro l
      induction l with
      | nil =>
        intro i q
        exact ⟨i, [], by simp [processChildren], List.nil_sublist _⟩
      | cons c cs ih =>
        intro i q
        by_cases h : lookupInt (mapDecr i c) c == 0
        · obtain ⟨d, b, he, hsub⟩ := ih (mapDecr i c) (q ++ [c])
          refine ⟨d, c :: b, ?_, hsub.cons₂ c⟩
          simp only [processChildren, h, if_true, he]
          rw [List.append_assoc, List.singleton_append]
        · obtain ⟨d, b, he, hsub⟩ := ih (mapDecr i c) q
          refine ⟨d, b, ?_, hsub.cons c⟩
          simp only [processChildren, h, if_false, he]
          rfl
    intro cs inDeg queue
    obtain ⟨d, b, he, hsub⟩ := key (sortStrings cs) inDeg queue
    exact ⟨d, b, he, hsub, List.Pairwise.sublist hsub (sortStrings_sorted cs)⟩
  · rfl

/-! ### The parser (`parser.go`): normalization of dynamic fields -/

/-- Go map assignment `m[k] = v` on the association-list model: overwrite
the entry when the key is present, append it otherwise. -/
def mapPut (l : List (String × α)) (k : String) (v : α) : List (String × α) :=
  if l.any (fun p => p.1 == k) then
    l.map (fun p => if p.1 == k then (p.1, v) else p)
  else l ++ [(k, v)]

/-- `fmt.Sprintf` with verb `%v` on the dynamic values the parser
formats.  Every formatting site in the verified code paths applies it to
scalars (strings, booleans, integers, nil) or to `[]string`; the
renderings of the remaining composite shapes are fixed placeholder texts
because no verified code path formats them. -/
def goFormat : GoVal → String
  | GoVal.vnull => "<nil>"
  | GoVal.vstr s => s
  | GoVal.vbool b => cond b "true" "false"
  | GoVal.vint n => toString n
  | GoVal.vstrList l => "[" ++ String.intercalate " " l ++ "]"
  | GoVal.vlist _ => "[composite]"
  | GoVal.vmap _ => "map[composite]"
  | GoVal.vcondMap _ => "map[composite]"
  | GoVal.vstrMap _ => "map[composite]"
  | GoVal.vbuild _ => "&\x7bcomposite\x7d"

/-- The Go dynamic type name printed by the `%T` verb, per `GoVal` shape. -/
def goTypeName : GoVal → String
  | GoVal.vnull => "<nil>"
  | GoVal.vstr _ => "string"
  | GoVal.vbool _ => "bool"
  | GoVal.vint _ => "int"
  | GoVal.vlist _ => "[]interface \x7b\x7d"
  | GoVal.vmap _ => "map[string]interface \x7b\x7d"
  | GoVal.vcondMap _ => "map[string]compose.DependsOnCondition"
  | GoVal.vstrList _ => "[]string"
  | GoVal.vstrMap _ => "map[string]string"
  | GoVal.vbuild _ => "*compose.BuildConfig"

/-- The `fmt.Errorf` text of the `default` arms (`unsupported type %T`). -/
def unsupportedMsg (v : GoVal) : String :=
  "unsupported type " ++ goTypeName v

/-- `os.Getenv`: the process environment value, empty string when unset.
The environment is passed explicitly as a lookup function. -/
def goGetenv (env : String → Option String) (k : String) : String :=
  (env k).getD ""

/-- `strings.Fields`: split around runs of whitespace, dropping empties.
`cur` accumulates the current word in reverse. -/
def fieldsAux : List Char → List Char → List String
  | [], cur => if cur.isEmpty then [] else [String.mk cur.reverse]
  | c :: cs, cur =>
    if c.isWhitespace then
      if cur.isEmpty then fieldsAux cs []
      else String.mk cur.reverse :: fieldsAux cs []
    else fieldsAux cs (c :: cur)

/-- `splitCommand` (`parser.go` lines 242-245): split a shell command
string into whitespace-separated parts. -/
def splitCommand (s : String) : List String := fieldsAux s.data []

/-- `resolveCommand` (`parser.go` lines 221-240): string is split into
tokens, a dynamic list is formatted element-wise, `[]string` passes
through, anything else is an unsupported-type error. -/
def resolveCommand : GoVal → Except String GoVal
  | GoVal.vnull => Except.ok GoVal.vnull
  | GoVal.vstr s => Except.ok (GoVal.vstrList (splitCommand s))
  | GoVal.vlist items => Except.ok (GoVal.vstrList (items.map goFormat))
  | GoVal.vstrList l => Except.ok (GoVal.vstrList l)
  | v => Except.error (unsupportedMsg v)

/-- `strings.Cut s "="`: split at the first `=`; `none` when absent. -/
def cutEqAux : List Char → Option (List Char × List Char)
  | [] => none
  | c :: cs =>
    if c = '=' then some ([], cs)
    else (cutEqAux cs).map (fun p => (c :: p.1, p.2))

/-- The value stored for one entry of the mapping form of `environment`
(`parser.go` lines 255-260): a `nil` value inherits the process
environment for the key, any other value is formatted. -/
def envMapValue (env : String → Option String) (p : String × GoVal) : String :=
  match p.2 with
  | GoVal.vnull => goGetenv env p.1
  | v => goFormat v

/-- `resolveEnvironment` (`parser.go` lines 247-280): a dynamic mapping
formats each value (a `nil` value inherits the process environment); a
list parses `KEY=VALUE` entries, a bare key inheriting from the process
environment; `map[string]string` passes through. -/
def resolveEnvironment (env : String → Option String) : GoVal → Except String GoVal
  | GoVal.vnull => Except.ok GoVal.vnull
  | GoVal.vmap entries =>
    Except.ok (GoVal.vstrMap (entries.map (fun p => (p.1, envMapValue env p))))
  | GoVal.vstrMap m => Except.ok (GoVal.vstrMap m)
  | GoVal.vlist items =>
    Except.ok (GoVal.vstrMap (items.foldl (fun acc item =>
      let s := goFormat item
      match cutEqAux s.data with
      | some (k, v) => mapPut acc (String.mk k) (String.mk v)
      | none => mapPut acc s (goGetenv env s)) []))
  | v => Except.error (unsupportedMsg v)

/-- `resolveEnvFile` (`parser.go` lines 282-308). -/
def resolveEnvFile : GoVal → Except String GoVal
  | GoVal.vnull => Except.ok GoVal.vnull
  | GoVal.vstr s => Except.ok (GoVal.vstrList [s])
  | GoVal.vlist items =>
    Except.ok (GoVal.vstrList (items.foldl (fun acc item =>
      match item with
      | GoVal.vstr s => acc ++ [s]
      | GoVal.vmap entries =>
        match entries.lookup "path" with
        | some p => acc ++ [goFormat p]
        | none => acc
      | _ => acc) []))
  | GoVal.vstrList l => Except.ok (GoVal.vstrList l)
  | v => Except.error (unsupportedMsg v)

/-- `resolveDependsOn` (`parser.go` lines 310-343): a list becomes a map
with condition `service_started`; a dynamic map reads the optional
`condition` and boolean `restart` fields. -/
def resolveDependsOn : GoVal → Except String GoVal
  | GoVal.vnull => Except.ok GoVal.vnull
  | GoVal.vlist items =>
    Except.ok (GoVal.vcondMap (items.foldl (fun acc item =>
      mapPut acc (goFormat item) ⟨"service_started", false⟩) []))
  | GoVal.vmap entries =>
    Except.ok (GoVal.vcondMap (entries.map (fun p =>
      (p.1,
        match p.2 with
        | GoVal.vmap condMap =>
          { condition :=
              match condMap.lookup "condition" with
              | some c => goFormat c
              | none => "service_started"
            restart :=
              match condMap.lookup "restart" with
              | some (GoVal.vbool rb) => rb
              | _ => false }
        | _ => ⟨"service_started", false⟩))))
  | v => Except.error (unsupportedMsg v)

/-- `resolveStringOrList` (`parser.go` lines 345-364). -/
def resolveStringOrList : GoVal → Except String GoVal
  | GoVal.vnull => Except.ok GoVal.vnull
  | GoVal.vstr s => Except.ok (GoVal.vstrList [s])
  | GoVal.vlist items => Except.ok (GoVal.vstrList (items.map goFormat))
  | GoVal.vstrList l => Except.ok (GoVal.vstrList l)
  | v => Except.error (unsupportedMsg v)

/-- `resolveNetworks` (`parser.go` lines 366-383). -/
def resolveNetworks : GoVal → Except String GoVal
  | GoVal.vnull => Except.ok GoVal.vnull
  | GoVal.vlist items =>
    Except.ok (GoVal.vmap (items.foldl (fun acc item =>
      mapPut acc (goFormat item) GoVal.vnull) []))
  | GoVal.vmap m => Except.ok (GoVal.vmap m)
  | v => Except.error (unsupportedMsg v)

/-- `resolveBuild` (`parser.go` lines 385-426): a bare string is the
build context; a dynamic map reads `context`, `dockerfile`, `target`,
`args`, `labels`. -/
def resolveBuild : GoVal → Except String GoVal
  | GoVal.vnull => Except.ok GoVal.vnull
  | GoVal.vbuild bc => Except.ok (GoVal.vbuild bc)
  | GoVal.vstr s => Except.ok (GoVal.vbuild { context := s })
  | GoVal.vmap val =>
    Except.ok (GoVal.vbuild
      { context :=
          match val.lookup "context" with
          | some c => goFormat c
          | none => ""
        dockerfile :=
          match val.lookup "dockerfile" with
          | some d => goFormat d
          | none => ""
        target :=
          match val.lookup "target" with
          | some t => goFormat t
          | none => ""
        args :=
          match val.lookup "args" with
          | some (GoVal.vmap argsMap) =>
            argsMap.map (fun p => (p.1, goFormat p.2))
          | _ => []
        labels :=
          match val.lookup "labels" with
          | some (GoVal.vmap labelsMap) =>
            labelsMap.map (fun p => (p.1, goFormat p.2))
          | _ => [] })
  | v => Except.error (unsupportedMsg v)

/-- `resolveService` (`parser.go` lines 162-219): normalize every dynamic
field in order, wrapping any error with the field name. -/
def resolveService (env : String → Option String) (svc : Service) :
    Except String Service := do
  let command ← (resolveCommand svc.command).mapError (fun e => "command: " ++ e)
  let entrypoint ← (resolveCommand svc.entrypoint).mapError
    (fun e => "entrypoint: " ++ e)
  let environment ← (resolveEnvironment env svc.environment).mapError
    (fun e => "environment: " ++ e)
  let envFile ← (resolveEnvFile svc.envFile).mapError (fun e => "env_file: " ++ e)
  let dependsOn ← (resolveDependsOn svc.dependsOn).mapError
    (fun e => "depends_on: " ++ e)
  let dns ← (resolveStringOrList svc.dns).mapError (fun e => "dns: " ++ e)
  let dnsSearch ← (resolveStringOrList svc.dnsSearch).mapError
    (fun e => "dns_search: " ++ e)
  let tmpfs ← (resolveStringOrList svc.tmpfs).mapError (fun e => "tmpfs: " ++ e)
  let networks ← (resolveNetworks svc.networks).mapError
    (fun e => "networks: " ++ e)
  let build ← (resolveBuild svc.build).mapError (fun e => "build: " ++ e)
  Except.ok { svc with
    command := command, entrypoint := entrypoint, environment := environment,
    envFile := envFile, dependsOn := dependsOn, dns := dns,
    dnsSearch := dnsSearch, tmpfs := tmpfs, networks := networks,
    build := build }

/-- The service-resolution stage of `Load` (`parser.go` lines 71-78):
normalize every service of the merged model, aborting on the first
failure with the error wrapped as `service "name": ...`.  This is the
only part of `Load` that inspects the contents of the services; `Load`
performs no cross-reference check of `depends_on` entries. -/
def resolveServices (env : String → Option String) :
    List (String × Service) → Except String (List (String × Service))
  | [] => Except.ok []
  | (n, svc) :: rest => do
    let r ← (resolveService env svc).mapError
      (fun e => "service \"" ++ n ++ "\": " ++ e)
    let tail ← resolveServices env rest
    Except.ok ((n, r) :: tail)

/-- `mergeComposeFiles` (`parser.go` lines 140-160): the top-level name is
overwritten by a non-empty incoming name, and the three maps are merged
key-wise, incoming entries overriding same-named existing ones.  (The Go
code's lazy `make` for a nil destination map is invisible in the
association-list model.) -/
def mergeComposeFiles (dst src : ComposeFile) : ComposeFile :=
  { name := if src.name ≠ "" then src.name else dst.name
    services := src.services.foldl (fun acc p => mapPut acc p.1 p.2) dst.services
    networks := src.networks.foldl (fun acc p => mapPut acc p.1 p.2) dst.networks
    volumes := src.volumes.foldl (fun acc p => mapPut acc p.1 p.2) dst.volumes }

/-- The merging loop of `Load` (`parser.go` lines 41-65): the first
parsed document is the base and each later document is merged into it,
left to right. -/
def mergeMany (first : ComposeFile) (rest : List ComposeFile) : ComposeFile :=
  rest.foldl mergeComposeFiles first

/-- `filepath.IsAbs` on unix: the path starts with a slash. -/
def filepathIsAbs (p : String) : Bool :=
  match p.data with
  | c :: _ => c = '/'
  | [] => false

/-- `filepath.Join dir p`, simplified: the separator insertion only (the
`Clean` normalization Go applies afterwards is not modelled; none of the
verified properties depend on it). -/
def filepathJoin (a b : String) : String :=
  if a = "" then b else if b = "" then a else a ++ "/" ++ b

/-- `composeBuildCLIArgs` (`cmd/compose.go` lines 830-860): build the
`container build` argument list from a `BuildConfig`; an empty context
defaults to `.`, and a relative context is joined to the project
directory. -/
def composeBuildCLIArgs (bc : BuildConfig) (tag projectDir : String) : List String :=
  let args := ["build"]
  let args := if tag ≠ "" then args ++ ["--tag", tag] else args
  let args := if bc.dockerfile ≠ "" then args ++ ["--file", bc.dockerfile] else args
  let args := if bc.target ≠ "" then args ++ ["--target", bc.target] else args
  let args := bc.args.foldl
    (fun acc p => acc ++ ["--build-arg", p.1 ++ "=" ++ p.2]) args
  let args := bc.labels.foldl
    (fun acc p => acc ++ ["--label", p.1 ++ "=" ++ p.2]) args
  let buildContext := bc.context
  let buildContext := if buildContext = "" then "." else buildContext
  let buildContext :=
    if filepathIsAbs buildContext then buildContext
    else filepathJoin projectDir buildContext
  args ++ [buildContext]

/-! ### Claim C8 -/

/-- C8: a bare-string `build` value normalizes to a `BuildConfig` whose
context is that string (all other fields at their zero values), and when
the context is absent (empty) after normalization the CLI argument
construction defaults it to `.` resolved relative to the project
directory, as the final argument. -/
theorem C8_build_context_default :
    (∀ s, resolveBuild (GoVal.vstr s) = Except.ok (GoVal.vbuild { context := s })) ∧
    (∀ (bc : BuildConfig) (tag projectDir : String), bc.context = "" →
      (composeBuildCLIArgs bc tag projectDir).getLast?
        = some (filepathJoin projectDir ".")) := by
  constructor
  · intro s
    rfl
  · intro bc tag pd h
    unfold composeBuildCLIArgs
    have habs : filepathIsAbs "." = false := by decide
    simp [h, habs, List.getLast?_concat]

/-- Witness for C8: a config with empty context and one argument ends
with the project-relative default context. -/
theorem C8_witness :
    resolveBuild (GoVal.vstr "./app")
      = Except.ok (GoVal.vbuild { context := "./app" }) ∧
    (composeBuildCLIArgs { context := "" } "web" "/proj").getLast?
      = some (filepathJoin "/proj" ".") :=
  ⟨C8_build_context_default.1 "./app",
   C8_build_context_default.2 { context := "" } "web" "/proj" rfl⟩

/-! ### Claim C9 -/

/-- C9: in the mapping form of the `environment` field, a key whose value
is `nil` inherits the invoking process's environment value for that key
(empty string when the variable is unset), exactly like the bare-key
entry of the list form. -/
theorem C9_env_map_null_inherits (env : String → Option String)
    (entries : List (String × GoVal)) (k : String)
    (hnd : KeysNodup entries) (hk : (k, GoVal.vnull) ∈ entries) :
    ∃ res, resolveEnvironment env (GoVal.vmap entries)
        = Except.ok (GoVal.vstrMap res) ∧
      res.lookup k = some ((env k).getD "") := by
  refine ⟨_, rfl, ?_⟩
  rw [lookup_map_pair (envMapValue env) entries k]
  rw [lookup_eq_some_of_mem hnd hk]
  rfl

/-- A concrete environment mapping with a null-valued key. -/
def exEnvMap : List (String × GoVal) :=
  [("A", GoVal.vnull), ("B", GoVal.vstr "x")]

/-- Witness for C9: with `A` unset in the process environment, the
null-valued key `A` resolves to the empty string. -/
theorem C9_witness :
    ∃ res, resolveEnvironment (fun _ => none) (GoVal.vmap exEnvMap)
        = Except.ok (GoVal.vstrMap res) ∧
      res.lookup "A" = some "" :=
  C9_env_map_null_inherits (fun _ => none) exEnvMap "A" (by decide)
    (List.mem_cons_self _ _)

/-! ### Claim C10 -/

/-- Replace every `DependsOn` value that is not of dynamic type
`map[string]DependsOnCondition` by `nil`; `ResolveOrder` cannot tell the
difference. -/
def scrubVal : GoVal → GoVal
  | GoVal.vcondMap m => GoVal.vcondMap m
  | _ => GoVal.vnull

/-- The services mapping with every unrecognized `DependsOn` shape
replaced by `nil`. -/
def scrubDeps (services : List (String × Service)) : List (String × Service) :=
  services.map (fun p => (p.1, { p.2 with dependsOn := scrubVal p.2.dependsOn }))

/-- A service whose `DependsOn` is an un-normalized raw list naming an
undeclared service. -/
def exRawDeps : List (String × Service) :=
  [("a", { dependsOn := GoVal.vlist [GoVal.vstr "missing"] })]

/-- C10: `ResolveOrder` raises no error for a service whose non-nil
`DependsOn` value has any dynamic type other than
`map[string]DependsOnCondition`; such a value is treated exactly as if it
were `nil` (no dependencies, in-degree zero), and in particular a raw
un-normalized list referencing an undeclared name is silently ignored. -/
theorem C10_non_condmap_depends_ignored :
    (∀ services : List (String × Service),
      ResolveOrder (scrubDeps services) = ResolveOrder services) ∧
    ResolveOrder exRawDeps = Except.ok ["a"] := by
  constructor
  · intro services
    have hdk : ∀ svc : Service,
        dependsKeys { svc with dependsOn := scrubVal svc.dependsOn }
          = dependsKeys svc := by
      intro svc
      unfold dependsKeys scrubVal
      cases svc.dependsOn <;> rfl
    have hkeys : keysOf (scrubDeps services) = keysOf services :=
      keysOf_map_pair _ services
    have hlook : ∀ k, ((scrubDeps services).lookup k).isSome
        = (services.lookup k).isSome := by
      intro k
      by_cases hk : k ∈ keysOf services
      · have h1 := (lookup_isSome_iff (scrubDeps services) k).mpr
          (by rw [hkeys]; exact hk)
        have h2 := (lookup_isSome_iff services k).mpr hk
        rw [h1, h2]
      · have h1 : ((scrubDeps services).lookup k).isSome = false := by
          rw [Bool.eq_false_iff]
          intro hc
          exact hk (hkeys ▸ (lookup_isSome_iff _ k).mp hc)
        have h2 : (services.lookup k).isSome = false := by
          rw [Bool.eq_false_iff]
          intro hc
          exact hk ((lookup_isSome_iff _ k).mp hc)
        rw [h1, h2]
    have hchk : ∀ name ds, checkSvcDeps (scrubDeps services) name ds
        = checkSvcDeps services name ds := by
      intro name ds
      induction ds with
      | nil => rfl
      | cons d t ih => simp only [checkSvcDeps, hlook d, ih]
    have hbd : ∀ l : List (String × Service),
        buildDeps (scrubDeps services) (scrubDeps l) = buildDeps services l := by
      intro l
      induction l with
      | nil => rfl
      | cons p t ih =>
        obtain ⟨n, svc⟩ := p
        have hcons : scrubDeps ((n, svc) :: t)
            = (n, { svc with dependsOn := scrubVal svc.dependsOn }) :: scrubDeps t := rfl
        rw [hcons]
        simp only [buildDeps, hchk, hdk svc, ih]
    unfold ResolveOrder
    rw [hbd services]
  · rfl

/-! ### Claim C5 -/

theorem checkSvcDeps_cases (all : List (String × Service)) (name : String) :
    ∀ ds : List String,
    (checkSvcDeps all name ds = Except.ok () ∧ ∀ d ∈ ds, d ∈ keysOf all) ∨
    (∃ d ∈ ds, checkSvcDeps all name ds = Except.error (undefinedDepMsg name d)
      ∧ d ∉ keysOf all) := by
  intro ds
  induction ds with
  | nil => exact Or.inl ⟨rfl, by simp⟩
  | cons d t ih =>
    by_cases hd : (all.lookup d).isSome
    · have hdk : d ∈ keysOf all := (lookup_isSome_iff all d).mp hd
      rcases ih with ⟨hok, hall⟩ | ⟨e, he, herr, hnk⟩
      · left
        constructor
        · simp only [checkSvcDeps, hd, if_true]
          exact hok
        · intro x hx
          rcases List.mem_cons.mp hx with h | h
          · exact h ▸ hdk
          · exact hall x h
      · right
        refine ⟨e, List.mem_cons_of_mem _ he, ?_, hnk⟩
        simp only [checkSvcDeps, hd, if_true]
        exact herr
    · right
      have hdf : (all.lookup d).isSome = false := by
        revert hd
        cases (all.lookup d).isSome <;> simp
      refine ⟨d, List.mem_cons_self _ _, ?_,
        fun hc => hd ((lookup_isSome_iff all d).mpr hc)⟩
      simp only [checkSvcDeps, hdf, Bool.false_eq_true, if_false]

theorem buildDeps_error (all : List (String × Service)) :
    ∀ l : List (String × Service),
    (∃ p ∈ l, ∃ d ∈ dependsKeys p.2, d ∉ keysOf all) →
    ∃ name dep svc, buildDeps all l = Except.error (undefinedDepMsg name dep) ∧
      (name, svc) ∈ l ∧ dep ∈ dependsKeys svc ∧ dep ∉ keysOf all := by
  intro l
  induction l with
  | nil =>
    rintro ⟨p, hp, _⟩
    cases hp
  | cons p t ih =>
    intro hbad
    obtain ⟨n, svc⟩ := p
    rcases checkSvcDeps_cases all n (dependsKeys svc) with ⟨hok, hall⟩ | ⟨d, hd, herr, hnk⟩
    · have hbad_t : ∃ q ∈ t, ∃ d ∈ dependsKeys q.2, d ∉ keysOf all := by
        rcases hbad with ⟨q, hq, d, hd, hnk⟩
        rcases List.mem_cons.mp hq with h | h
        · exfalso
          apply hnk
          apply hall
          rw [h] at hd
          exact hd
        · exact ⟨q, h, d, hd, hnk⟩
      obtain ⟨name, dep, svc2, herr2, hm, hdk2, hnk2⟩ := ih hbad_t
      refine ⟨name, dep, svc2, ?_, List.mem_cons_of_mem _ hm, hdk2, hnk2⟩
      simp only [buildDeps, hok, herr2]
      rfl
    · refine ⟨n, d, svc, ?_, List.mem_cons_self _ _, hd, hnk⟩
      simp only [buildDeps, herr]
      rfl

/-- A one-service model whose raw `depends_on` list references the
undeclared service `b` (the shape YAML decoding produces). -/
def exC5raw : List (String × Service) :=
  [("a", { dependsOn := GoVal.vlist [GoVal.vstr "b"] })]

/-- The same model after `Load`'s service-resolution stage. -/
def exC5resolved : List (String × Service) :=
  [("a", { dependsOn :=
    GoVal.vcondMap [("b", ⟨"service_started", false⟩)] })]

/-- Counterexample to C5 as stated: `Load`'s service-resolution stage
(the only part of `Load` that inspects services) succeeds without any
error on a model whose normalized `depends_on` references the undeclared
service `b`; no undefined-dependency error is produced at load time, and
the violation is only reported when `ResolveOrder` runs. -/
theorem C5_counterexample :
    resolveServices (fun _ => none) exC5raw = Except.ok exC5resolved ∧
    (∃ p ∈ exC5resolved, ∃ d ∈ dependsKeys p.2, d ∉ keysOf exC5resolved) ∧
    ResolveOrder exC5resolved = Except.error (undefinedDepMsg "a" "b") := by
  refine ⟨rfl, by decide, rfl⟩

/-- C5 (amended): an undefined dependency reference is not detected by
`Load` (whose service-resolution stage performs no cross-reference
check); it is detected when `ResolveOrder` runs, which fails with the
undefined-dependency error naming a service and its missing reference
before producing any order. -/
theorem C5_undefined_detected_at_resolve (services : List (String × Service))
    (hbad : ∃ p ∈ services, ∃ d ∈ dependsKeys p.2, d ∉ keysOf services) :
    ∃ name dep svc,
      ResolveOrder services = Except.error (undefinedDepMsg name dep) ∧
      (name, svc) ∈ services ∧ dep ∈ dependsKeys svc ∧
      dep ∉ keysOf services := by
  obtain ⟨name, dep, svc, herr, hm, hdk, hnk⟩ := buildDeps_error services services hbad
  refine ⟨name, dep, svc, ?_, hm, hdk, hnk⟩
  unfold ResolveOrder
  rw [herr]
  rfl

/-- Witness for the amended C5 at the concrete resolved model: the
hypothesis is satisfiable and `ResolveOrder` reports the undefined
reference. -/
theorem C5_witness :
    ∃ name dep svc,
      ResolveOrder exC5resolved = Except.error (undefinedDepMsg name dep) ∧
      (name, svc) ∈ exC5resolved ∧ dep ∈ dependsKeys svc ∧
      dep ∉ keysOf exC5resolved :=
  C5_undefined_detected_at_resolve exC5resolved (by decide)

/-! ### The environment interpolator (`parser.go` lines 94-126) -/

/-- The opening brace character. -/
def lbraceChar : Char := Char.ofNat 123

/-- The closing brace character. -/
def rbraceChar : Char := Char.ofNat 125

/-- Scanning helper for the regex `\$\x7b([^\x7d]+)\x7d`: given the text
after an opening `$\x7b`, return the (possibly empty) run of
non-closing-brace characters and the text after the closing brace, or
`none` when no closing brace follows. -/
def takeInner : List Char → Option (List Char × List Char)
  | [] => none
  | c :: cs =>
    if c = rbraceChar then some ([], cs)
    else (takeInner cs).map (fun p => (c :: p.1, p.2))

/-- `strings.Index inner ":-"` followed by the two slicings of
`parser.go` lines 104-106: split at the first occurrence of `:-`. -/
def splitFirstColonDash : List Char → Option (List Char × List Char)
  | [] => none
  | c :: cs =>
    if c = ':' then
      match cs with
      | '-' :: rest => some ([], rest)
      | _ => (splitFirstColonDash cs).map (fun p => (c :: p.1, p.2))
    else (splitFirstColonDash cs).map (fun p => (c :: p.1, p.2))

/-- `strings.Index inner "-"` followed by the two slicings of
`parser.go` lines 114-116: split at the first occurrence of `-`. -/
def splitFirstDash : List Char → Option (List Char × List Char)
  | [] => none
  | c :: cs =>
    if c = '-' then some ([], cs)
    else (splitFirstDash cs).map (fun p => (c :: p.1, p.2))

/-- The replacement function of `interpolateEnv` (`parser.go` lines
100-124), applied to the inner text of one `$\x7b...\x7d` reference:
the `:-` form is tried first, then the bare `-` form, then the plain
variable lookup. -/
def expandVar (env : String → Option String) (inner : List Char) : List Char :=
  match splitFirstColonDash inner with
  | some (varName, defaultVal) =>
    match env (String.mk varName) with
    | some val => if val ≠ "" then val.data else defaultVal
    | none => defaultVal
  | none =>
    match splitFirstDash inner with
    | some (varName, defaultVal) =>
      match env (String.mk varName) with
      | some val => val.data
      | none => defaultVal
    | none => (goGetenv env (String.mk inner)).data

/-- The left-to-right, non-overlapping scan of
`envVarPattern.ReplaceAllStringFunc` (`parser.go` lines 94-99): find each
`$\x7b...\x7d` reference with non-empty brace-free inner text, replace it
via `expandVar`, and continue after it; all other characters are copied.
`fuel` bounds recursion and exceeds the text length at every call. -/
def interpChars (env : String → Option String) : Nat → List Char → List Char
  | 0, l => l
  | Nat.succ _, [] => []
  | Nat.succ fuel, c :: cs =>
    if c = '$' then
      match cs with
      | [] => c :: interpChars env fuel cs
      | b :: rest =>
        if b = lbraceChar then
          match takeInner rest with
          | some (inner, rest2) =>
            if inner = [] then c :: interpChars env fuel cs
            else expandVar env inner ++ interpChars env fuel rest2
          | none => c :: interpChars env fuel cs
        else c :: interpChars env fuel cs
    else c :: interpChars env fuel cs

/-- `interpolateEnv` (`parser.go` lines 97-126): replace every
`$\x7bVAR\x7d`, `$\x7bVAR:-default\x7d` and `$\x7bVAR-default\x7d`
reference with the corresponding environment value. -/
def interpolateEnv (env : String → Option String) (s : String) : String :=
  String.mk (interpChars env (s.data.length + 1) s.data)

/-- The text of one variable reference: `$\x7b` ++ inner ++ `\x7d`. -/
def varRef (inner : String) : String := "$\x7b" ++ inner ++ "\x7d"

/-! ### Lemmas about the interpolator -/

theorem strMk_data (s : String) : String.mk s.data = s := by
  cases s
  rfl

theorem strData_inj {a b : String} (h : a.data = b.data) : a = b := by
  cases a
  cases b
  cases h
  rfl

theorem takeInner_boundary : ∀ (x s : List Char), rbraceChar ∉ x →
    takeInner (x ++ rbraceChar :: s) = some (x, s) := by
  intro x
  induction x with
  | nil =>
    intro s _
    simp [takeInner]
  | cons c x' ih =>
    intro s h
    have hc : c ≠ rbraceChar := fun he => h (he ▸ List.mem_cons_self _ _)
    have ht := ih s (fun hm => h (List.mem_cons_of_mem _ hm))
    simp [takeInner, hc, ht]

theorem takeInner_length : ∀ (l : List Char) (i r : List Char),
    takeInner l = some (i, r) → r.length < l.length := by
  intro l
  induction l with
  | nil => intro i r h; simp [takeInner] at h
  | cons c cs ih =>
    intro i r h
    by_cases hc : c = rbraceChar
    · simp only [takeInner, hc, if_pos rfl] at h
      cases h
      simp
    · simp only [takeInner, hc, if_false, if_neg hc] at h
      cases htc : takeInner cs with
      | none => rw [htc] at h; simp at h
      | some p =>
        rw [htc] at h
        have h3 : ((c :: p.1, p.2) : List Char × List Char) = (i, r) :=
          Option.some.inj h
        have h4 := ih p.1 p.2 htc
        have hr : r = p.2 := (congrArg Prod.snd h3).symm
        simp only [List.length_cons]
        rw [hr]
        omega

theorem splitColonDash_none : ∀ l : List Char, ':' ∉ l →
    splitFirstColonDash l = none := by
  intro l
  induction l with
  | nil => intro _; rfl
  | cons c cs ih =>
    intro h
    have hc : c ≠ ':' := fun he => h (he ▸ List.mem_cons_self _ _)
    have ht := ih (fun hm => h (List.mem_cons_of_mem _ hm))
    simp [splitFirstColonDash, hc, ht]

theorem splitColonDash_boundary : ∀ (x d : List Char), ':' ∉ x →
    splitFirstColonDash (x ++ ':' :: '-' :: d) = some (x, d) := by
  intro x
  induction x with
  | nil =>
    intro d _
    simp [splitFirstColonDash]
  | cons c x' ih =>
    intro d h
    have hc : c ≠ ':' := fun he => h (he ▸ List.mem_cons_self _ _)
    have ht := ih d (fun hm => h (List.mem_cons_of_mem _ hm))
    simp [splitFirstColonDash, hc, ht]

theorem splitDash_none : ∀ l : List Char, '-' ∉ l →
    splitFirstDash l = none := by
  intro l
  induction l with
  | nil => intro _; rfl
  | cons c cs ih =>
    intro h
    have hc : c ≠ '-' := fun he => h (he ▸ List.mem_cons_self _ _)
    have ht := ih (fun hm => h (List.mem_cons_of_mem _ hm))
    simp [splitFirstDash, hc, ht]

theorem splitDash_boundary : ∀ (x d : List Char), '-' ∉ x →
    splitFirstDash (x ++ '-' :: d) = some (x, d) := by
  intro x
  induction x with
  | nil =>
    intro d _
    simp [splitFirstDash]
  | cons c x' ih =>
    intro d h
    have hc : c ≠ '-' := fun he => h (he ▸ List.mem_cons_self _ _)
    have ht := ih d (fun hm => h (List.mem_cons_of_mem _ hm))
    simp [splitFirstDash, hc, ht]

theorem interpChars_fuel (env : String → Option String) :
    ∀ (f1 f2 : Nat) (l : List Char), l.length < f1 → l.length < f2 →
    interpChars env f1 l = interpChars env f2 l := by
  intro f1
  induction f1 with
  | zero =>
    intro f2 l h1 _
    omega
  | succ f1 ih =>
    intro f2 l h1 h2
    match f2, l with
    | 0, l => omega
    | Nat.succ f2, [] => rfl
    | Nat.succ f2, c :: cs =>
      have hcs1 : cs.length < f1 := by
        simp only [List.length_cons] at h1
        omega
      have hcs2 : cs.length < f2 := by
        simp only [List.length_cons] at h2
        omega
      by_cases hc : c = '$'
      · cases cs with
        | nil =>
          simp only [interpChars, if_pos hc]
          rw [ih f2 [] hcs1 hcs2]
        | cons b rest =>
          by_cases hb : b = lbraceChar
          · cases ht : takeInner rest with
            | none =>
              simp only [interpChars, if_pos hc, if_pos hb, ht]
              rw [ih f2 (b :: rest) hcs1 hcs2]
            | some p =>
              obtain ⟨inner, rest2⟩ := p
              by_cases hi : inner = []
              · simp only [interpChars, if_pos hc, if_pos hb, ht, if_pos hi]
                rw [ih f2 (b :: rest) hcs1 hcs2]
              · have hr2 : rest2.length < rest.length := takeInner_length rest inner rest2 ht
                have hrest1 : rest2.length < f1 := by
                  simp only [List.length_cons] at hcs1
                  omega
                have hrest2 : rest2.length < f2 := by
                  simp only [List.length_cons] at hcs2
                  omega
                simp only [interpChars, if_pos hc, if_pos hb, ht, if_neg hi]
                rw [ih f2 rest2 hrest1 hrest2]
          · simp only [interpChars, if_pos hc, if_neg hb]
            rw [ih f2 (b :: rest) hcs1 hcs2]
      · simp only [interpChars, if_neg hc]
        rw [ih f2 cs hcs1 hcs2]

theorem interpChars_ctx (env : String → Option String) :
    ∀ (p x s : List Char) (fuel : Nat),
    p.length + x.length + s.length + 3 ≤ fuel →
    '$' ∉ p → x ≠ [] → rbraceChar ∉ x →
    interpChars env fuel (p ++ '$' :: lbraceChar :: (x ++ rbraceChar :: s))
      = p ++ (expandVar env x ++ interpChars env (s.length + 1) s) := by
  intro p
  induction p with
  | nil =>
    intro x s fuel hfuel _ hx hxb
    obtain ⟨f, rfl⟩ : ∃ f, fuel = f + 1 := ⟨fuel - 1, by omega⟩
    simp only [List.nil_append, interpChars, if_pos rfl, if_true,
      takeInner_boundary x s hxb, if_neg hx]
    congr 1
    apply interpChars_fuel
    · omega
    · omega
  | cons c p' ih =>
    intro x s fuel hfuel hp hx hxb
    have hc : c ≠ '$' := fun he => hp (he ▸ List.mem_cons_self _ _)
    obtain ⟨f, rfl⟩ : ∃ f, fuel = f + 1 := ⟨fuel - 1, by omega⟩
    simp only [List.cons_append, interpChars, if_neg hc]
    exact congrArg (fun t => c :: t)
      (ih x s f (by simp only [List.length_cons] at hfuel; omega)
        (fun hm => hp (List.mem_cons_of_mem _ hm)) hx hxb)

theorem interpolate_ctx (env : String → Option String) (p x s : String)
    (hp : '$' ∉ p.data) (hx : x.data ≠ []) (hxb : rbraceChar ∉ x.data) :
    interpolateEnv env (p ++ varRef x ++ s)
      = p ++ String.mk (expandVar env x.data) ++ interpolateEnv env s := by
  have h1 : ("$\x7b" : String).data = ['$', lbraceChar] := by decide
  have h2 : ("\x7d" : String).data = [rbraceChar] := by decide
  have hdata : (p ++ varRef x ++ s).data
      = p.data ++ '$' :: lbraceChar :: (x.data ++ rbraceChar :: s.data) := by
    simp [varRef, String.data_append, h1, h2]
    exact ⟨by decide, by decide⟩
  have hlen : p.data.length + x.data.length + s.data.length + 3
      ≤ (p ++ varRef x ++ s).data.length + 1 := by
    rw [hdata]
    simp [List.length_append]
    omega
  unfold interpolateEnv
  rw [hdata] at hlen ⊢
  rw [interpChars_ctx env p.data x.data s.data _ hlen hp hx hxb]
  apply strData_inj
  simp [String.data_append, List.append_assoc]

theorem interpolate_ref (env : String → Option String) (x : String)
    (hx : x.data ≠ []) (hxb : rbraceChar ∉ x.data) :
    interpolateEnv env (varRef x) = String.mk (expandVar env x.data) := by
  have h0 : ("" : String) ++ varRef x ++ "" = varRef x := by
    apply strData_inj
    simp [String.data_append]
  have h := interpolate_ctx env "" x "" (by simp) hx hxb
  rw [h0] at h
  rw [h]
  apply strData_inj
  simp [String.data_append, interpolateEnv, interpChars]

theorem expandVar_plain (env : String → Option String) (x : List Char)
    (hx1 : ':' ∉ x) (hx2 : '-' ∉ x) :
    expandVar env x = (goGetenv env (String.mk x)).data := by
  unfold expandVar
  rw [splitColonDash_none x hx1, splitDash_none x hx2]

theorem expandVar_colonDash (env : String → Option String) (x d : List Char)
    (hx : ':' ∉ x) :
    expandVar env (x ++ ':' :: '-' :: d)
      = match env (String.mk x) with
        | some val => if val ≠ "" then val.data else d
        | none => d := by
  unfold expandVar
  rw [splitColonDash_boundary x d hx]

theorem expandVar_dash (env : String → Option String) (x d : List Char)
    (hx1 : ':' ∉ x) (hx2 : '-' ∉ x) (hd : ':' ∉ d) :
    expandVar env (x ++ '-' :: d)
      = match env (String.mk x) with
        | some val => val.data
        | none => d := by
  unfold expandVar
  have hnc : ':' ∉ (x ++ '-' :: d) := by
    intro hm
    rcases List.mem_append.mp hm with h | h
    · exact hx1 h
    · rcases List.mem_cons.mp h with h2 | h2
      · exact absurd h2 (by decide)
      · exact hd h2
  rw [splitColonDash_none _ hnc, splitDash_boundary x d hx2]

/-! ### Claim C6 -/

/-- A well-formed variable name for the purposes of the recognized
reference forms: non-empty and free of the closing brace and of the two
separator characters. -/
def VarNameOk (x : String) : Prop :=
  x.data ≠ [] ∧ ∀ c ∈ x.data, c ≠ rbraceChar ∧ c ≠ ':' ∧ c ≠ '-'

/-- A default text that does not end the reference early. -/
def DefOk (d : String) : Prop := ∀ c ∈ d.data, c ≠ rbraceChar

instance (x : String) : Decidable (VarNameOk x) := by
  unfold VarNameOk
  infer_instance

instance (d : String) : Decidable (DefOk d) := by
  unfold DefOk
  exact List.decidableBAll _ _

theorem varNameOk_parts {x : String} (h : VarNameOk x) :
    x.data ≠ [] ∧ rbraceChar ∉ x.data ∧ ':' ∉ x.data ∧ '-' ∉ x.data := by
  obtain ⟨h1, h2⟩ := h
  refine ⟨h1, fun hm => ?_, fun hm => ?_, fun hm => ?_⟩
  · exact (h2 _ hm).1 rfl
  · exact (h2 _ hm).2.1 rfl
  · exact (h2 _ hm).2.2 rfl

theorem colon_dash_data (x d : String) :
    (x ++ ":-" ++ d).data = x.data ++ ':' :: '-' :: d.data := by
  have h : (":-" : String).data = [':', '-'] := by decide
  simp [String.data_append, h]

theorem dash_data (x d : String) :
    (x ++ "-" ++ d).data = x.data ++ '-' :: d.data := by
  have h : ("-" : String).data = ['-'] := by decide
  simp [String.data_append, h]

/-- C6: the interpolator replaces each non-overlapping reference in a
single left-to-right pass: a dollar-free prefix is copied verbatim and
scanning continues after the reference (1); a plain reference to an
unset variable becomes the empty string (2); the `:-` form substitutes
the default exactly when the variable is unset or set empty, and the
value otherwise (3, 4); the bare `-` form substitutes the value whenever
the variable is set, including to the empty string, and the default only
when unset (5, 6); and when the inner text contains both forms the `:-`
interpretation is applied in preference: the variable name extends over
the earlier bare `-` (7). -/
theorem C6_interpolation (env : String → Option String) :
    (∀ p x s : String, '$' ∉ p.data → x.data ≠ [] → rbraceChar ∉ x.data →
      interpolateEnv env (p ++ varRef x ++ s)
        = p ++ String.mk (expandVar env x.data) ++ interpolateEnv env s) ∧
    (∀ x : String, VarNameOk x → env x = none →
      interpolateEnv env (varRef x) = "") ∧
    (∀ x d : String, VarNameOk x → DefOk d →
      (env x = none ∨ env x = some "") →
      interpolateEnv env (varRef (x ++ ":-" ++ d)) = d) ∧
    (∀ x d v : String, VarNameOk x → DefOk d → env x = some v → v ≠ "" →
      interpolateEnv env (varRef (x ++ ":-" ++ d)) = v) ∧
    (∀ x d v : String, VarNameOk x → DefOk d → ':' ∉ d.data →
      env x = some v → interpolateEnv env (varRef (x ++ "-" ++ d)) = v) ∧
    (∀ x d : String, VarNameOk x → DefOk d → ':' ∉ d.data → env x = none →
      interpolateEnv env (varRef (x ++ "-" ++ d)) = d) ∧
    (∀ x1 x2 d : String, VarNameOk x1 → VarNameOk x2 → DefOk d →
      env (x1 ++ "-" ++ x2) = none →
      interpolateEnv env (varRef (x1 ++ "-" ++ x2 ++ ":-" ++ d)) = d) := by
  have hcolon_ne_rb : (':' : Char) ≠ rbraceChar := by decide
  have hdash_ne_rb : ('-' : Char) ≠ rbraceChar := by decide
  refine ⟨interpolate_ctx env, ?_, ?_, ?_, ?_, ?_, ?_⟩
  · intro x hx henv
    obtain ⟨h1, h2, h3, h4⟩ := varNameOk_parts hx
    rw [interpolate_ref env x h1 h2, expandVar_plain env x.data h3 h4,
        strMk_data, strMk_data x]
    unfold goGetenv
    rw [henv]
    rfl
  · intro x d hx hd henv
    obtain ⟨h1, h2, h3, h4⟩ := varNameOk_parts hx
    have hne : (x ++ ":-" ++ d).data ≠ [] := by
      rw [colon_dash_data]
      simp
    have hrb : rbraceChar ∉ (x ++ ":-" ++ d).data := by
      rw [colon_dash_data]
      intro hm
      rcases List.mem_append.mp hm with h | h
      · exact h2 h
      · rcases List.mem_cons.mp h with h | h
        · exact hcolon_ne_rb h.symm
        · rcases List.mem_cons.mp h with h | h
          · exact hdash_ne_rb h.symm
          · exact hd _ h rfl
    rw [interpolate_ref env _ hne hrb, colon_dash_data,
        expandVar_colonDash env x.data d.data h3, strMk_data x]
    rcases henv with h | h
    · rw [h, strMk_data]
    · rw [h]
      simp [strMk_data]
  · intro x d v hx hd henv hv
    obtain ⟨h1, h2, h3, h4⟩ := varNameOk_parts hx
    have hne : (x ++ ":-" ++ d).data ≠ [] := by
      rw [colon_dash_data]
      simp
    have hrb : rbraceChar ∉ (x ++ ":-" ++ d).data := by
      rw [colon_dash_data]
      intro hm
      rcases List.mem_append.mp hm with h | h
      · exact h2 h
      · rcases List.mem_cons.mp h with h | h
        · exact hcolon_ne_rb h.symm
        · rcases List.mem_cons.mp h with h | h
          · exact hdash_ne_rb h.symm
          · exact hd _ h rfl
    rw [interpolate_ref env _ hne hrb, colon_dash_data,
        expandVar_colonDash env x.data d.data h3, strMk_data x, henv]
    simp [hv, strMk_data]
  · intro x d v hx hd hdc henv
    obtain ⟨h1, h2, h3, h4⟩ := varNameOk_parts hx
    have hne : (x ++ "-" ++ d).data ≠ [] := by
      rw [dash_data]
      simp
    have hrb : rbraceChar ∉ (x ++ "-" ++ d).data := by
      rw [dash_data]
      intro hm
      rcases List.mem_append.mp hm with h | h
      · exact h2 h
      · rcases List.mem_cons.mp h with h | h
        · exact hdash_ne_rb h.symm
        · exact hd _ h rfl
    rw [interpolate_ref env _ hne hrb, dash_data,
        expandVar_dash env x.data d.data h3 h4 hdc, strMk_data x, henv,
        strMk_data]
  · intro x d hx hd hdc henv
    obtain ⟨h1, h2, h3, h4⟩ := varNameOk_parts hx
    have hne : (x ++ "-" ++ d).data ≠ [] := by
      rw [dash_data]
      simp
    have hrb : rbraceChar ∉ (x ++ "-" ++ d).data := by
      rw [dash_data]
      intro hm
      rcases List.mem_append.mp hm with h | h
      · exact h2 h
      · rcases List.mem_cons.mp h with h | h
        · exact hdash_ne_rb h.symm
        · exact hd _ h rfl
    rw [interpolate_ref env _ hne hrb, dash_data,
        expandVar_dash env x.data d.data h3 h4 hdc, strMk_data x, henv,
        strMk_data]
  · intro x1 x2 d hx1 hx2 hd henv
    obtain ⟨h11, h12, h13, h14⟩ := varNameOk_parts hx1
    obtain ⟨h21, h22, h23, h24⟩ := varNameOk_parts hx2
    have hdata : (x1 ++ "-" ++ x2 ++ ":-" ++ d).data
        = (x1.data ++ '-' :: x2.data) ++ ':' :: '-' :: d.data := by
      rw [colon_dash_data (x1 ++ "-" ++ x2) d, dash_data x1 x2]
    have hne : (x1 ++ "-" ++ x2 ++ ":-" ++ d).data ≠ [] := by
      rw [hdata]
      simp
    have hrb : rbraceChar ∉ (x1 ++ "-" ++ x2 ++ ":-" ++ d).data := by
      rw [hdata]
      intro hm
      rcases List.mem_append.mp hm with h | h
      · rcases List.mem_append.mp h with h | h
        · exact h12 h
        · rcases List.mem_cons.mp h with h | h
          · exact hdash_ne_rb h.symm
          · exact h22 h
      · rcases List.mem_cons.mp h with h | h
        · exact hcolon_ne_rb h.symm
        · rcases List.mem_cons.mp h with h | h
          · exact hdash_ne_rb h.symm
          · exact hd _ h rfl
    have hnc : ':' ∉ (x1.data ++ '-' :: x2.data) := by
      intro hm
      rcases List.mem_append.mp hm with h | h
      · exact h13 h
      · rcases List.mem_cons.mp h with h | h
        · exact absurd h.symm (by decide)
        · exact h23 h
    have hvn : String.mk (x1.data ++ '-' :: x2.data) = x1 ++ "-" ++ x2 := by
      apply strData_inj
      rw [dash_data]
    rw [interpolate_ref env _ hne hrb, hdata,
        expandVar_colonDash env (x1.data ++ '-' :: x2.data) d.data hnc, hvn,
        henv, strMk_data]

/-- The environment used by the C6 witness: `E` is set to the empty
string; everything else is unset. -/
def envW : String → Option String := fun k => if k = "E" then some "" else none

/-- Witness for C6 at concrete inputs: with `X` unset, the `:-` form
substitutes the default; with `E` set to the empty string, the bare `-`
form substitutes the empty value rather than the default. -/
theorem C6_witness :
    interpolateEnv envW (varRef ("X" ++ ":-" ++ "fallback")) = "fallback" ∧
    interpolateEnv envW (varRef ("E" ++ "-" ++ "d")) = "" :=
  ⟨(C6_interpolation envW).2.2.1 "X" "fallback" (by decide) (by decide)
      (Or.inl rfl),
   (C6_interpolation envW).2.2.2.2.1 "E" "d" "" (by decide) (by decide)
      (by decide) rfl⟩

/-! ### Claim C7: merging -/

theorem mapPut_eq_map {α : Type} {l : List (String × α)} {k : String}
    (h : k ∈ keysOf l) (v : α) :
    mapPut l k v = l.map (fun p => (p.1, if p.1 == k then v else p.2)) := by
  unfold mapPut
  rw [if_pos]
  · apply List.map_congr_left
    intro p _
    by_cases hp : p.1 = k <;> simp [hp]
  · obtain ⟨p, hp, hfst⟩ := List.mem_map.mp h
    exact List.any_eq_true.mpr ⟨p, hp, by simp [hfst]⟩

theorem mapPut_eq_append {α : Type} {l : List (String × α)} {k : String}
    (h : k ∉ keysOf l) (v : α) : mapPut l k v = l ++ [(k, v)] := by
  unfold mapPut
  rw [if_neg]
  intro hc
  obtain ⟨p, hpm, hpe⟩ := List.any_eq_true.mp hc
  exact h (List.mem_map.mpr ⟨p, hpm, by simpa using hpe⟩)

theorem lookup_mapPut_self {α : Type} (l : List (String × α)) (k : String)
    (v : α) : (mapPut l k v).lookup k = some v := by
  by_cases h : k ∈ keysOf l
  · rw [mapPut_eq_map h v,
        lookup_map_pair (fun p => if p.1 == k then v else p.2) l k]
    have hs : (l.lookup k).isSome := (lookup_isSome_iff l k).mpr h
    cases hl : l.lookup k with
    | none => rw [hl] at hs; simp at hs
    | some w => simp
  · rw [mapPut_eq_append h v, List.lookup_append,
        (lookup_eq_none_iff l k).mpr h]
    simp [List.lookup]

theorem lookup_mapPut_ne {α : Type} (l : List (String × α)) (k : String)
    (v : α) (k' : String) (hne : k' ≠ k) :
    (mapPut l k v).lookup k' = l.lookup k' := by
  by_cases h : k ∈ keysOf l
  · rw [mapPut_eq_map h v,
        lookup_map_pair (fun p => if p.1 == k then v else p.2) l k']
    cases hl : l.lookup k' with
    | none => simp
    | some w => simp [hne]
  · rw [mapPut_eq_append h v, List.lookup_append]
    have h2 : ([(k, v)] : List (String × α)).lookup k' = none := by
      simp [List.lookup, show (k' == k) = false by simp [hne]]
    rw [h2]
    cases l.lookup k' <;> rfl

theorem lookup_foldPut_none {α : Type} :
    ∀ (src acc : List (String × α)) (k : String),
    src.lookup k = none →
    (src.foldl (fun a p => mapPut a p.1 p.2) acc).lookup k = acc.lookup k := by
  intro src
  induction src with
  | nil => intro acc k _; rfl
  | cons p t ih =>
    obtain ⟨a, b⟩ := p
    intro acc k h
    have hne : k ≠ a := by
      intro he
      simp [List.lookup, he] at h
    have ht : t.lookup k = none := by
      simpa [List.lookup, show (k == a) = false by simp [hne]] using h
    simp only [List.foldl_cons]
    rw [ih _ k ht, lookup_mapPut_ne _ _ _ _ hne]

theorem lookup_foldPut_some {α : Type} :
    ∀ (src acc : List (String × α)) (k : String) (v : α),
    KeysNodup src → src.lookup k = some v →
    (src.foldl (fun a p => mapPut a p.1 p.2) acc).lookup k = some v := by
  intro src
  induction src with
  | nil => intro acc k v _ h; simp [List.lookup] at h
  | cons p t ih =>
    obtain ⟨a, b⟩ := p
    intro acc k v hnd h
    simp only [KeysNodup, keysOf, List.map_cons, List.nodup_cons] at hnd
    by_cases hp : k = a
    · have hv : b = v := by
        simpa [List.lookup, hp] using h
      have ht : t.lookup k = none := by
        rw [lookup_eq_none_iff]
        rw [hp]
        exact hnd.1
      simp only [List.foldl_cons]
      rw [lookup_foldPut_none t _ k ht, hp, lookup_mapPut_self, hv]
    · have ht : t.lookup k = some v := by
        simpa [List.lookup, show (k == a) = false by simp [hp]] using h
      simp only [List.foldl_cons]
      exact ih _ k v hnd.2 ht

theorem mergeMany_field_none {α : Type} (F : ComposeFile → List (String × α))
    (hF : ∀ a b, F (mergeComposeFiles a b)
      = (F b).foldl (fun acc p => mapPut acc p.1 p.2) (F a)) :
    ∀ (ds : List ComposeFile) (d : ComposeFile) (k : String),
    (∀ doc ∈ ds, (F doc).lookup k = none) →
    (F (mergeMany d ds)).lookup k = (F d).lookup k := by
  intro ds
  induction ds with
  | nil => intro d k _; rfl
  | cons doc t ih =>
    intro d k h
    have h1 : (F doc).lookup k = none := h doc (List.mem_cons_self _ _)
    have hstep : mergeMany d (doc :: t) = mergeMany (mergeComposeFiles d doc) t := rfl
    rw [hstep, ih _ k (fun x hx => h x (List.mem_cons_of_mem _ hx)), hF,
        lookup_foldPut_none _ _ _ h1]

theorem mergeMany_field_last {α : Type} (F : ComposeFile → List (String × α))
    (hF : ∀ a b, F (mergeComposeFiles a b)
      = (F b).foldl (fun acc p => mapPut acc p.1 p.2) (F a)) :
    ∀ (l1 : List ComposeFile) (d doc : ComposeFile) (l2 : List ComposeFile)
      (k : String) (v : α),
    KeysNodup (F doc) → (F doc).lookup k = some v →
    (∀ doc2 ∈ l2, (F doc2).lookup k = none) →
    (F (mergeMany d (l1 ++ doc :: l2))).lookup k = some v := by
  intro l1
  induction l1 with
  | nil =>
    intro d doc l2 k v hnd h hnone
    have hstep : mergeMany d (doc :: l2) = mergeMany (mergeComposeFiles d doc) l2 := rfl
    rw [List.nil_append, hstep, mergeMany_field_none F hF l2 _ k hnone, hF,
        lookup_foldPut_some _ _ _ _ hnd h]
  | cons e t ih =>
    intro d doc l2 k v hnd h hnone
    have hstep : mergeMany d ((e :: t) ++ doc :: l2)
        = mergeMany (mergeComposeFiles d e) (t ++ doc :: l2) := rfl
    rw [hstep]
    exact ih _ doc l2 k v hnd h hnone

theorem mergeMany_name_none :
    ∀ (ds : List ComposeFile) (d : ComposeFile),
    (∀ doc ∈ ds, doc.name = "") → (mergeMany d ds).name = d.name := by
  intro ds
  induction ds with
  | nil => intro d _; rfl
  | cons doc t ih =>
    intro d h
    have h1 : doc.name = "" := h doc (List.mem_cons_self _ _)
    have hstep : mergeMany d (doc :: t) = mergeMany (mergeComposeFiles d doc) t := rfl
    rw [hstep, ih _ (fun x hx => h x (List.mem_cons_of_mem _ hx))]
    show (if doc.name ≠ "" then doc.name else d.name) = d.name
    simp [h1]

theorem mergeMany_name_last :
    ∀ (l1 : List ComposeFile) (d doc : ComposeFile) (l2 : List ComposeFile),
    doc.name ≠ "" → (∀ doc2 ∈ l2, doc2.name = "") →
    (mergeMany d (l1 ++ doc :: l2)).name = doc.name := by
  intro l1
  induction l1 with
  | nil =>
    intro d doc l2 h hnone
    have hstep : mergeMany d (doc :: l2) = mergeMany (mergeComposeFiles d doc) l2 := rfl
    rw [List.nil_append, hstep, mergeMany_name_none l2 _ hnone]
    show (if doc.name ≠ "" then doc.name else d.name) = doc.name
    simp [h]
  | cons e t ih =>
    intro d doc l2 h hnone
    have hstep : mergeMany d ((e :: t) ++ doc :: l2)
        = mergeMany (mergeComposeFiles d e) (t ++ doc :: l2) := rfl
    rw [hstep]
    exact ih _ doc l2 h hnone

/-- C7: documents are merged left to right: the top-level name is
overwritten by each later non-empty name; `services`, `networks` and
`volumes` are merged key-wise with the last document defining a key fully
replacing any earlier entry (whole-entry replacement), entries whose keys
appear only in earlier documents remaining present, and entries
introduced only in later documents present in the result. -/
theorem C7_merge_left_to_right :
    ((∀ (ds : List ComposeFile) (d : ComposeFile) (k : String),
        (∀ doc ∈ ds, doc.services.lookup k = none) →
        (mergeMany d ds).services.lookup k = d.services.lookup k) ∧
     (∀ (l1 : List ComposeFile) (d doc : ComposeFile) (l2 : List ComposeFile)
        (k : String) (v : Service),
        KeysNodup doc.services → doc.services.lookup k = some v →
        (∀ doc2 ∈ l2, doc2.services.lookup k = none) →
        (mergeMany d (l1 ++ doc :: l2)).services.lookup k = some v)) ∧
    ((∀ (ds : List ComposeFile) (d : ComposeFile) (k : String),
        (∀ doc ∈ ds, doc.networks.lookup k = none) →
        (mergeMany d ds).networks.lookup k = d.networks.lookup k) ∧
     (∀ (l1 : List ComposeFile) (d doc : ComposeFile) (l2 : List ComposeFile)
        (k : String) (v : Network),
        KeysNodup doc.networks → doc.networks.lookup k = some v →
        (∀ doc2 ∈ l2, doc2.networks.lookup k = none) →
        (mergeMany d (l1 ++ doc :: l2)).networks.lookup k = some v)) ∧
    ((∀ (ds : List ComposeFile) (d : ComposeFile) (k : String),
        (∀ doc ∈ ds, doc.volumes.lookup k = none) →
        (mergeMany d ds).volumes.lookup k = d.volumes.lookup k) ∧
     (∀ (l1 : List ComposeFile) (d doc : ComposeFile) (l2 : List ComposeFile)
        (k : String) (v : VolumeConfig),
        KeysNodup doc.volumes → doc.volumes.lookup k = some v →
        (∀ doc2 ∈ l2, doc2.volumes.lookup k = none) →
        (mergeMany d (l1 ++ doc :: l2)).volumes.lookup k = some v)) ∧
    ((∀ (ds : List ComposeFile) (d : ComposeFile),
        (∀ doc ∈ ds, doc.name = "") → (mergeMany d ds).name = d.name) ∧
     (∀ (l1 : List ComposeFile) (d doc : ComposeFile) (l2 : List ComposeFile),
        doc.name ≠ "" → (∀ doc2 ∈ l2, doc2.name = "") →
        (mergeMany d (l1 ++ doc :: l2)).name = doc.name)) :=
  ⟨⟨mergeMany_field_none (fun cf => cf.services) (fun _ _ => rfl),
    mergeMany_field_last (fun cf => cf.services) (fun _ _ => rfl)⟩,
   ⟨mergeMany_field_none (fun cf => cf.networks) (fun _ _ => rfl),
    mergeMany_field_last (fun cf => cf.networks) (fun _ _ => rfl)⟩,
   ⟨mergeMany_field_none (fun cf => cf.volumes) (fun _ _ => rfl),
    mergeMany_field_last (fun cf => cf.volumes) (fun _ _ => rfl)⟩,
   ⟨mergeMany_name_none, mergeMany_name_last⟩⟩

/-- The first document of the two-document merge scenario. -/
def exDoc1 : ComposeFile :=
  { name := "app",
    services := [("a", { image := "a1" }), ("b", { image := "b1" })] }

/-- The second document: it redefines `a` entirely and introduces `c`. -/
def exDoc2 : ComposeFile :=
  { name := "",
    services := [("a", { image := "a2" }), ("c", { image := "c1" })] }

/-- Witness for C7 at the two-document scenario: the later document's
`a` fully replaces the earlier one's, `b` from the first document
remains, `c` introduced by the second document is present, and the
empty later name leaves the first document's name in place. -/
theorem C7_witness :
    (mergeMany exDoc1 [exDoc2]).services.lookup "a" = some { image := "a2" } ∧
    (mergeMany exDoc1 [exDoc2]).services.lookup "b" = some { image := "b1" } ∧
    (mergeMany exDoc1 [exDoc2]).services.lookup "c" = some { image := "c1" } ∧
    (mergeMany exDoc1 [exDoc2]).name = "app" := by
  refine ⟨?_, ?_, ?_, ?_⟩
  · exact C7_merge_left_to_right.1.2 [] exDoc1 exDoc2 [] "a" { image := "a2" }
      (by decide) rfl (fun x hx => absurd hx (List.not_mem_nil x))
  · exact (C7_merge_left_to_right.1.1 [exDoc2] exDoc1 "b"
      (fun doc hd => by
        rw [List.mem_singleton.mp hd]
        rfl)).trans rfl
  · exact C7_merge_left_to_right.1.2 [] exDoc1 exDoc2 [] "c" { image := "c1" }
      (by decide) rfl (fun x hx => absurd hx (List.not_mem_nil x))
  · exact (C7_merge_left_to_right.2.2.2.1 [exDoc2] exDoc1
      (fun doc hd => by
        rw [List.mem_singleton.mp hd]
        rfl)).trans rfl

end Dctl
